import Mathlib

/-!
A shallow embedding of the cosmic-text buffer core: `src/attrs.rs` (colors,
attributes, attribute interval lists) and `src/buffer.rs` (the text buffer,
its lazy shape/layout pipeline, cursor addressing, hit testing and the
`TextAction` state machine).

Modelling conventions:
* Rust `String`s are lists of Unicode scalar values (`List Nat`); byte
  offsets are recovered through `charLenUtf8`/`byteLen`, so every statement
  about byte indices matches the UTF-8 byte arithmetic of the source.
* Rust machine integers (`i32`, `usize`) are modelled as `Int`/`Nat`;
  none of the verified claims depends on wrap-around behaviour.
  Rust `i32` division truncates toward zero, which is `Int.tdiv`.
* Operations that can panic in the source (out-of-bounds indexing,
  `unwrap`, `todo!`, string splits off a char boundary, integer division
  by zero) return `Except String _`; `.error` marks a panic.
* `f32` glyph coordinates are modelled as `Int`; no verified claim depends
  on sub-pixel rounding, only on the branch structure of the hit test.
* The external collaborators (`TextBufferLine` from this repository but
  outside `src/`, and the `unicode-segmentation` crate) are modelled from
  the spec where so marked.
-/

/-- Number of bytes of the UTF-8 encoding of a Unicode scalar value,
as Rust's `char::len_utf8`. -/
def charLenUtf8 (c : Nat) : Nat :=
  if c < 0x80 then 1 else if c < 0x800 then 2 else if c < 0x10000 then 3 else 4

/-- Byte length of a string (list of scalar values), as Rust's `str::len`. -/
def byteLen (s : List Nat) : Nat := (s.map charLenUtf8).sum

/-- Split a string at a byte offset.  Returns `none` when the offset is not
on a char boundary, which models the panic of Rust's string indexing and
`String::split_off`. -/
def splitAtByte (s : List Nat) (i : Nat) : Option (List Nat × List Nat) :=
  if i = 0 then some ([], s) else
  match s with
  | [] => none
  | c :: rest =>
    if charLenUtf8 c ≤ i then
      (splitAtByte rest (i - charLenUtf8 c)).map (fun p => (c :: p.1, p.2))
    else none

/-- `i` is a char (code point) boundary of `s`, as Rust's `str::is_char_boundary`. -/
def isCharBoundary (s : List Nat) (i : Nat) : Bool := (splitAtByte s i).isSome

/-- The `(byte offset, char)` pairs of a string, as Rust's `str::char_indices`,
starting from byte offset `o`. -/
def charIndicesFrom (o : Nat) : List Nat → List (Nat × Nat)
  | [] => []
  | c :: rest => (o, c) :: charIndicesFrom (o + charLenUtf8 c) rest

/-- The `(byte offset, char)` pairs of a string, as Rust's `str::char_indices`. -/
def charIndices (s : List Nat) : List (Nat × Nat) := charIndicesFrom 0 s

/-- The `Backspace` arm's scan for the previous char index: the byte offset of
the last char that starts strictly before `i`, or `0`.  The source breaks out
of the loop at the first char index `≥ i`; since char indices increase, the
fold computes the same value. -/
def prevCharIndex (s : List Nat) (i : Nat) : Nat :=
  (charIndices s).foldl (fun acc p => if p.1 < i then p.1 else acc) 0

/-- Rust's `char::is_control`: the Unicode `Cc` category,
`U+0000..=U+001F` and `U+007F..=U+009F`. -/
def isControlChar (c : Nat) : Bool :=
  decide (c < 0x20) || (decide (0x7F ≤ c) && decide (c ≤ 0x9F))

/-- Regional-indicator scalar values `U+1F1E6..=U+1F1FF`. -/
def isRI (c : Nat) : Bool := decide (0x1F1E6 ≤ c) && decide (c ≤ 0x1F1FF)

/-- A grapheme-extending scalar value; the combining diacritical marks
`U+0300..=U+036F`, a subset of the Unicode `Grapheme_Extend` class that
covers every character appearing in this development. -/
def isExtendCh (c : Nat) : Bool := decide (0x300 ≤ c) && decide (c ≤ 0x36F)

/-- One step of the grapheme segmenter: `acc` is (finished clusters, current
cluster); a new char joins the current cluster exactly when it is extending
(UAX #29 rule GB9) or when it pairs with a lone regional indicator
(rules GB12/GB13). -/
def segStep (acc : List (List Nat) × List Nat) (c : Nat) : List (List Nat) × List Nat :=
  match acc with
  | (done, []) => (done, [c])
  | (done, cur) =>
    if isExtendCh c then (done, cur ++ [c])
    else
      match cur with
      | [r] => if isRI r && isRI c then (done, [r, c]) else (done ++ [cur], [c])
      | _ => (done ++ [cur], [c])

/-- Modelled from the spec: the extended-grapheme-cluster segmentation that the
source takes from the external `unicode-segmentation` crate
(`str::grapheme_indices(true)`), which is not part of this repository.  The
spec glossary defines a grapheme cluster as the smallest user-perceived
character unit (UAX #29); this model implements the UAX #29 rules relevant to
the characters used in this development: default break between characters,
no break before an extending mark (GB9), and no break inside a regional
indicator pair (GB12/GB13). -/
def graphemes (s : List Nat) : List (List Nat) :=
  let p := s.foldl segStep ([], [])
  if p.2 = [] then p.1 else p.1 ++ [p.2]

/-- Attach byte offsets to a list of clusters, starting at offset `o`. -/
def withOffsets (o : Nat) : List (List Nat) → List (Nat × List Nat)
  | [] => []
  | g :: gs => (o, g) :: withOffsets (o + byteLen g) gs

/-- The `(byte offset, cluster)` pairs of a string, as
`str::grapheme_indices(true)` of the `unicode-segmentation` crate. -/
def graphemeIndices (s : List Nat) : List (Nat × List Nat) :=
  withOffsets 0 (graphemes s)

/-- `i` is an extended-grapheme-cluster boundary of `s`. -/
def isGraphemeBoundary (s : List Nat) (i : Nat) : Bool :=
  i == byteLen s || (graphemeIndices s).any (fun p => p.1 == i)

/-- The `Previous` arm's scan: byte offset of the last cluster that starts
strictly before `i`, or `0`.  As with `prevCharIndex`, the fold agrees with
the source's loop-with-break because cluster offsets increase. -/
def prevGraphemeIndex (s : List Nat) (i : Nat) : Nat :=
  (graphemeIndices s).foldl (fun acc p => if p.1 < i then p.1 else acc) 0

/-! ## `src/attrs.rs`: colors and attributes -/

/-- Text color (`Color(pub u32)`); claims do not inspect components, so the
packed `u32` is a `Nat`. -/
abbrev Color := Nat

/-- `fontdb::Family`. -/
inductive Family where
  | name (s : String)
  | serif
  | sansSerif
  | cursive
  | fantasy
  | monospace
deriving DecidableEq

/-- `fontdb::Style`. -/
inductive Style where
  | normal
  | italic
  | oblique
deriving DecidableEq

/-- `fontdb::Stretch`. -/
inductive Stretch where
  | ultraCondensed
  | extraCondensed
  | condensed
  | semiCondensed
  | normal
  | semiExpanded
  | expanded
  | extraExpanded
  | ultraExpanded
deriving DecidableEq

/-- `fontdb::Weight(u16)`. -/
abbrev Weight := Nat

/-- Text attributes (`Attrs` in `src/attrs.rs`). -/
structure Attrs where
  colorOpt : Option Color
  family : Family
  monospaced : Bool
  stretch : Stretch
  style : Style
  weight : Weight
deriving DecidableEq

/-- `Attrs::new`: regular Sans-Serif defaults (`Weight::NORMAL` is 400). -/
def Attrs.new : Attrs :=
  { colorOpt := none
    family := Family.sansSerif
    monospaced := false
    stretch := Stretch.normal
    style := Style.normal
    weight := 400 }

/-- One attribute span: a byte range plus attributes.  `lo`/`hi` are the
source's `range.start`/`range.end`. -/
structure AttrsSpan where
  lo : Nat
  hi : Nat
  attrs : Attrs
deriving DecidableEq

/-- List of text attributes to apply to a line (`AttrsList`). -/
structure AttrsList where
  defaults : Attrs
  spans : List AttrsSpan
deriving DecidableEq

/-- `AttrsList::new`. -/
def AttrsList.new (d : Attrs) : AttrsList := ⟨d, []⟩

/-- The condensing loop of `AttrsList::add_span`: a single left-to-right pass
that merges two adjacent spans (`a.end == b.start`) with equal attributes.
The source's `while` loop either merges `spans[i]` with `spans[i+1]` (staying
at `i`) or advances `i`; this recursion does exactly that. -/
def condenseSpans : List AttrsSpan → List AttrsSpan
  | [] => []
  | [a] => [a]
  | a :: b :: rest =>
    if a.hi = b.lo ∧ a.attrs = b.attrs then
      condenseSpans ({ a with hi := b.hi } :: rest)
    else
      a :: condenseSpans (b :: rest)
termination_by l => l.length
decreasing_by
  all_goals (simp only [List.length_cons]; omega)

/-- `AttrsList::add_span`: push the span, then condense. -/
def AttrsList.addSpan (l : AttrsList) (lo hi : Nat) (attrs : Attrs) : AttrsList :=
  { l with spans := condenseSpans (l.spans ++ [⟨lo, hi, attrs⟩]) }

/-- `AttrsList::get_span`: the latest added span whose range contains
`lo..hi`, else the defaults. -/
def AttrsList.getSpan (l : AttrsList) (lo hi : Nat) : Attrs :=
  match l.spans.reverse.find? (fun sp => decide (sp.lo ≤ lo) && decide (hi ≤ sp.hi)) with
  | some sp => sp.attrs
  | none => l.defaults

/-- The span partition of `AttrsList::split_off`: spans ending at or before
`index` stay; spans starting at or after `index` move, rebased by `-index`;
a straddling span is cut into a kept `start..index` part and a moved
`0..end-index` part.  Order is preserved on both sides, as in the source's
in-place loop. -/
def splitSpans (index : Nat) : List AttrsSpan → List AttrsSpan × List AttrsSpan
  | [] => ([], [])
  | sp :: rest =>
    let p := splitSpans index rest
    if sp.hi ≤ index then
      (sp :: p.1, p.2)
    else if index ≤ sp.lo then
      (p.1, ⟨sp.lo - index, sp.hi - index, sp.attrs⟩ :: p.2)
    else
      (⟨sp.lo, index, sp.attrs⟩ :: p.1, ⟨0, sp.hi - index, sp.attrs⟩ :: p.2)

/-- `AttrsList::split_off`: the retained list and the new list (which gets the
same defaults, `Self::new(self.defaults)` in the source). -/
def AttrsList.splitOff (l : AttrsList) (index : Nat) : AttrsList × AttrsList :=
  let p := splitSpans index l.spans
  (⟨l.defaults, p.1⟩, ⟨l.defaults, p.2⟩)

/-! ## `src/buffer.rs`: data model -/

/-- An action to perform on a `TextBuffer` (`TextAction`).  `Insert` carries
the scalar value of the character; `Click`/`Drag` carry pixel coordinates;
`Scroll` carries a line count. -/
inductive TextAction where
  | previous
  | next
  | left
  | right
  | up
  | down
  | home
  | «end»
  | pageUp
  | pageDown
  | insert (character : Nat)
  | enter
  | backspace
  | delete
  | click (x y : Int)
  | drag (x y : Int)
  | scroll (lines : Int)
deriving DecidableEq

/-- Current cursor location (`TextCursor`). -/
structure TextCursor where
  line : Nat
  index : Nat
deriving DecidableEq

/-- `TextCursor::new`. -/
def TextCursor.new (line index : Nat) : TextCursor := ⟨line, index⟩

/-- The visual projection of a cursor (`TextLayoutCursor`): line, visual-row
index, glyph index. -/
structure TextLayoutCursor where
  line : Nat
  layout : Nat
  glyph : Nat
deriving DecidableEq

/-- `usize::max_value()`, used by the `Up`/`End` arms as an
"clamp to the end" index. -/
def usizeMax : Nat := 2 ^ 64 - 1

/-- One positioned glyph of a laid-out visual row (`LayoutGlyph`, an external
collaborator): byte `start`/`end` into the line text (here `start`/`stop`),
horizontal extent `x`/`w` (source `f32`, modelled as `Int`), and an RTL flag.
The rasterization fields (`x_int`, `y_int`, `cache_key`, `color_opt`) are
used only by `draw`/`outlines` and are not modelled. -/
structure LayoutGlyph where
  start : Nat
  stop : Nat
  x : Int
  w : Int
  rtl : Bool
deriving DecidableEq

/-- One wrapped visual row of a laid-out line (`LayoutLine`): its glyphs. -/
structure LayoutLine where
  glyphs : List LayoutGlyph
deriving DecidableEq

/-- The part of a line's shape result that the buffer reads: the paragraph
RTL flag (`ShapeLine::rtl`). -/
structure ShapeLine where
  rtl : Bool
deriving DecidableEq

/-- Modelled from the spec: `TextBufferLine`, a line (paragraph) of the
buffer.  It is code of this repository outside `src/`; per the spec it owns
one paragraph's text and `AttrsList` plus optional caches of shaping output
and wrapped layout output, invalidated whenever their inputs change. -/
structure TextBufferLine where
  text : List Nat
  attrsList : AttrsList
  shapeOpt : Option ShapeLine
  layoutOpt : Option (List LayoutLine)
deriving DecidableEq

/-- `TextBufferLine::new`: a fresh line has no caches. -/
def TextBufferLine.new (text : List Nat) (attrsList : AttrsList) : TextBufferLine :=
  ⟨text, attrsList, none, none⟩

/-- Modelled from the spec: `TextBufferLine::split_off(index)` splits the
text at a byte offset and splits the `AttrsList` in lock-step at the same
offset; both halves are text-mutated, so both caches reset (spec 4.3: any
text/attribute mutation on a line resets it to `Unshaped`).  Splitting off a
char boundary panics (Rust `String::split_off`), modelled as `.error`. -/
def TextBufferLine.splitOff (l : TextBufferLine) (index : Nat) :
    Except String (TextBufferLine × TextBufferLine) :=
  match splitAtByte l.text index with
  | none => .error "split_off: index not on a char boundary"
  | some p =>
    let q := l.attrsList.splitOff index
    .ok (⟨p.1, q.1, none, none⟩, ⟨p.2, q.2, none, none⟩)

/-- Modelled from the spec: `TextBufferLine::append(other)` concatenates the
text and appends `other`'s attribute spans shifted by the old text's byte
length (the spec's lock-step append); the mutation resets the caches. -/
def TextBufferLine.append (l other : TextBufferLine) : TextBufferLine :=
  { text := l.text ++ other.text
    attrsList :=
      { defaults := l.attrsList.defaults
        spans := l.attrsList.spans ++ other.attrsList.spans.map
          (fun sp => ⟨sp.lo + byteLen l.text, sp.hi + byteLen l.text, sp.attrs⟩) }
    shapeOpt := none
    layoutOpt := none }

/-- `TextBufferLine::reset_layout`. -/
def TextBufferLine.resetLayout (l : TextBufferLine) : TextBufferLine :=
  { l with layoutOpt := none }

/-- The external Shaper collaborator (spec 6): produces a shape result (at
least an RTL flag) and, from shape plus font size and wrap width, a layout
(an ordered list of visual rows of glyphs).  Theorems quantify over it. -/
structure Shaper where
  shape : List Nat → AttrsList → ShapeLine
  layout : List Nat → AttrsList → Int → Int → List LayoutLine

/-- Modelled from the spec: `TextBufferLine::layout(font_system, font_size,
width)` returns the cached layout or computes (and caches) shape and layout. -/
def TextBufferLine.layout (sh : Shaper) (fontSize width : Int) (l : TextBufferLine) :
    TextBufferLine × List LayoutLine :=
  match l.layoutOpt with
  | some lay => (l, lay)
  | none =>
    let shape := match l.shapeOpt with
      | some s => s
      | none => sh.shape l.text l.attrsList
    let lay := sh.layout l.text l.attrsList fontSize width
    ({ l with shapeOpt := some shape, layoutOpt := some lay }, lay)

/-- Metrics of text (`TextMetrics`). -/
structure TextMetrics where
  fontSize : Int
  lineHeight : Int
deriving DecidableEq

/-- A buffer of text that is shaped and laid out (`TextBuffer`).  The
`font_system` reference is subsumed by the `Shaper` collaborator passed to
the operations. -/
structure TextBuffer where
  lines : List TextBufferLine
  metrics : TextMetrics
  width : Int
  height : Int
  scroll : Int
  cursor : TextCursor
  cursorXOpt : Option Int
  selectOpt : Option TextCursor
  cursorMoved : Bool
  redraw : Bool
deriving DecidableEq

/-- Indexing `self.lines[i]`; `.error` models the panic on an
out-of-bounds index. -/
def TextBuffer.line (b : TextBuffer) (i : Nat) : Except String TextBufferLine :=
  match b.lines[i]? with
  | some l => .ok l
  | none => .error "index out of bounds"

/-- Replace line `i` (the effect of mutating `self.lines[i]` in place). -/
def TextBuffer.setLine (b : TextBuffer) (i : Nat) (l : TextBufferLine) : TextBuffer :=
  { b with lines := b.lines.set i l }

/-- The smallest `i32`, `-2^31`: the one dividend whose quotient by `-1` is
not representable in `i32`. -/
def i32Min : Int := -(2 ^ 31)

/-- `TextBuffer::lines()`, the number of lines that can be viewed:
`height / line_height` with `i32` division (truncating).  Rust `i32`
division panics unconditionally (debug and release) on a zero divisor and
on signed overflow, which occurs exactly at `i32::MIN / -1`; both panics
are modelled as `none`.  Named `visibleLines` because the `lines` field
occupies the source name. -/
def TextBuffer.visibleLines (b : TextBuffer) : Option Int :=
  if b.metrics.lineHeight = 0 then none
  else if b.height = i32Min ∧ b.metrics.lineHeight = -1 then none
  else some (Int.tdiv b.height b.metrics.lineHeight)

/-- `visibleLines` as a panicking operation. -/
def TextBuffer.visibleLinesE (b : TextBuffer) : Except String Int :=
  match b.visibleLines with
  | some n => .ok n
  | none => .error "division panic in lines()"

/-! ## Lazy shape/layout pipeline -/

/-- The loop of `TextBuffer::shape_until`: walk the lines, laying each out,
until the accumulated number of visual rows reaches the budget; returns the
remaining-then-processed lines, the accumulated total and the number of lines
that had no shape cache (the source's `reshaped` counter). -/
def shapeUntilGo (sh : Shaper) (fontSize width budget : Int) :
    List TextBufferLine → Int → Nat → List TextBufferLine × Int × Nat
  | [], total, resh => ([], total, resh)
  | l :: rest, total, resh =>
    if budget ≤ total then (l :: rest, total, resh)
    else
      let resh2 := if l.shapeOpt.isNone then resh + 1 else resh
      let p := l.layout sh fontSize width
      let q := shapeUntilGo sh fontSize width budget rest (total + (p.2.length : Int)) resh2
      (p.1 :: q.1, q.2.1, q.2.2)

/-- `TextBuffer::shape_until(lines)`: pre-shape lines up to a number of layout
rows, returning the updated buffer and the actual number of layout rows
accumulated.  Sets `redraw` when any line was reshaped. -/
def TextBuffer.shapeUntil (sh : Shaper) (b : TextBuffer) (budget : Int) : TextBuffer × Int :=
  let r := shapeUntilGo sh b.metrics.fontSize b.width budget b.lines 0 0
  ({ b with lines := r.1, redraw := if r.2.2 > 0 then true else b.redraw }, r.2.1)

/-- `TextBuffer::shape_until_scroll`: shape until `scroll + lines()` rows,
then clamp `scroll` to `max(0, min(total_layout - (lines - 1), scroll))`. -/
def TextBuffer.shapeUntilScroll (sh : Shaper) (b : TextBuffer) : Except String TextBuffer := do
  let lv ← b.visibleLinesE
  let scrollEnd := b.scroll + lv
  let p := b.shapeUntil sh scrollEnd
  .ok { p.1 with scroll := max 0 (min (p.2 - (lv - 1)) p.1.scroll) }

/-- The scan of `TextBuffer::layout_cursor` over a line's layout rows: find
the row and glyph index of a byte-offset cursor; a row whose last glyph ends
at the cursor yields "past the last glyph"; an empty row yields glyph 0; when
no row matches, fall back to row 0, glyph 0. -/
def lcScan (index : Nat) : Nat → List LayoutLine → Nat × Nat
  | _, [] => (0, 0)
  | li, row :: rest =>
    match row.glyphs.findIdx? (fun g => g.start == index) with
    | some gi => (li, gi)
    | none =>
      match row.glyphs.getLast? with
      | some g => if g.stop = index then (li, row.glyphs.length) else lcScan index (li + 1) rest
      | none => (li, 0)

/-- `TextBuffer::layout_cursor`: project a byte cursor to a visual position.
The source indexes `self.lines[cursor.line]` and calls
`.layout_opt().as_ref().unwrap()`; both panics are modelled as `.error`. -/
def TextBuffer.layoutCursor (b : TextBuffer) (cursor : TextCursor) :
    Except String TextLayoutCursor := do
  let line ← b.line cursor.line
  match line.layoutOpt with
  | none => .error "unwrap of absent layout cache in layout_cursor"
  | some layout =>
    let p := lcScan cursor.index 0 layout
    .ok ⟨cursor.line, p.1, p.2⟩

/-- `TextBuffer::set_layout_cursor`: resolve a visual position back to a byte
cursor, clamping the row to the last row and the glyph to past the last
glyph; the source's `todo!` on a line with no layout rows is `.error`.
Sets `redraw` exactly when the cursor actually changed. -/
def TextBuffer.setLayoutCursor (sh : Shaper) (b : TextBuffer) (c : TextLayoutCursor) :
    Except String TextBuffer := do
  let line ← b.line c.line
  let p := line.layout sh b.metrics.fontSize b.width
  let b := b.setLine c.line p.1
  let layoutLine ← match p.2[c.layout]? with
    | some r => Except.ok r
    | none =>
      match p.2.getLast? with
      | some r => Except.ok r
      | none => Except.error "todo: layout cursor in line with no layouts"
  let newIndex :=
    match layoutLine.glyphs[c.glyph]? with
    | some g => g.start
    | none =>
      match layoutLine.glyphs.getLast? with
      | some g => g.stop
      | none => 0
  if b.cursor.line ≠ c.line ∨ b.cursor.index ≠ newIndex then
    .ok { b with cursor := ⟨c.line, newIndex⟩, redraw := true }
  else
    .ok b

/-- The loop of `TextBuffer::shape_until_cursor`: lay out lines up to and
including the cursor line; at the cursor line, add the cursor's visual row
index (via the `layout_cursor` scan over the just-computed layout) and stop;
otherwise add the line's row count.  Returns lines, accumulated `layout_i`
and the reshaped count. -/
def sucGo (sh : Shaper) (fontSize width : Int) (cursorLine cursorIndex : Nat) :
    Nat → List TextBufferLine → List TextBufferLine × Int × Nat
  | _, [] => ([], 0, 0)
  | i, l :: rest =>
    if cursorLine < i then (l :: rest, 0, 0)
    else
      let resh := if l.shapeOpt.isNone then 1 else 0
      let p := l.layout sh fontSize width
      if i = cursorLine then
        let lc := lcScan cursorIndex 0 p.2
        (p.1 :: rest, (lc.1 : Int), resh)
      else
        let q := sucGo sh fontSize width cursorLine cursorIndex (i + 1) rest
        (p.1 :: q.1, (p.2.length : Int) + q.2.1, resh + q.2.2)

/-- `TextBuffer::shape_until_cursor`: shape lines until the cursor, adjust
`scroll` so the cursor's row is inside the viewport, then
`shape_until_scroll`. -/
def TextBuffer.shapeUntilCursor (sh : Shaper) (b : TextBuffer) : Except String TextBuffer := do
  let r := sucGo sh b.metrics.fontSize b.width b.cursor.line b.cursor.index 0 b.lines
  let layoutI := r.2.1
  let b := { b with lines := r.1, redraw := if r.2.2 > 0 then true else b.redraw }
  let lv ← b.visibleLinesE
  let b :=
    if layoutI < b.scroll then { b with scroll := layoutI }
    else if b.scroll + lv ≤ layoutI then { b with scroll := layoutI - (lv - 1) }
    else b
  b.shapeUntilScroll sh

/-- `TextBuffer::relayout`: for every line with a shape cache, drop the layout
cache and recompute it at the current width and font size. -/
def TextBuffer.relayout (sh : Shaper) (b : TextBuffer) : TextBuffer :=
  { b with
    lines := b.lines.map (fun l =>
      if l.shapeOpt.isSome then (l.resetLayout.layout sh b.metrics.fontSize b.width).1 else l)
    redraw := true }

/-- `TextBuffer::set_size`: relayout and reshape on a width change, reshape on
a height change. -/
def TextBuffer.setSize (sh : Shaper) (b : TextBuffer) (w h : Int) : Except String TextBuffer := do
  let b ← if w ≠ b.width then ({ b with width := w }.relayout sh).shapeUntilScroll sh else .ok b
  if h ≠ b.height then ({ b with height := h }).shapeUntilScroll sh else .ok b

/-! ## Visible-row iteration and hit testing -/

/-- A visible visual row for rendering (`TextLayoutRun`). -/
structure TextLayoutRun where
  lineI : Nat
  text : List Nat
  rtl : Bool
  glyphs : List LayoutGlyph
  lineY : Int
deriving DecidableEq

/-- The rows that `TextLayoutRunIter` walks: every layout row of every line,
in order, stopping at the first line whose shape or layout cache is absent
(the iterator's `?` operator). -/
def flatRows : Nat → List TextBufferLine → List (Nat × List Nat × Bool × List LayoutGlyph)
  | _, [] => []
  | i, l :: rest =>
    match l.shapeOpt, l.layoutOpt with
    | some shape, some layout =>
      layout.map (fun row => (i, l.text, shape.rtl, row.glyphs)) ++ flatRows (i + 1) rest
    | _, _ => []

/-- The emission loop of `TextLayoutRunIter::next`: skip rows while
`total_layout < scroll` (without advancing `line_y`), then advance `line_y`
by `line_height` per row and stop at the first row with `line_y > height`. -/
def emitRuns (lh height scroll : Int) :
    List (Nat × List Nat × Bool × List LayoutGlyph) → Int → Int → List TextLayoutRun
  | [], _, _ => []
  | r :: rest, lineY, total =>
    if total < scroll then emitRuns lh height scroll rest lineY (total + 1)
    else
      let lineY2 := lineY + lh
      if height < lineY2 then []
      else ⟨r.1, r.2.1, r.2.2.1, r.2.2.2, lineY2⟩ :: emitRuns lh height scroll rest lineY2 (total + 1)

/-- `TextBuffer::layout_runs`: the visible rows, as the list the iterator
produces; `line_y` starts at `font_size - line_height`. -/
def TextBuffer.layoutRuns (b : TextBuffer) : List TextLayoutRun :=
  emitRuns b.metrics.lineHeight b.height b.scroll (flatRows 0 b.lines)
    (b.metrics.fontSize - b.metrics.lineHeight) 0

/-- Rust's `&text[lo..hi]`; panics (``.error``) when the range is reversed or
off a char boundary. -/
def sliceBytes (s : List Nat) (lo hi : Nat) : Except String (List Nat) :=
  if hi < lo then .error "slice index starts after end" else
  match splitAtByte s lo with
  | none => .error "slice start not on a char boundary"
  | some p =>
    match splitAtByte p.2 (hi - lo) with
    | none => .error "slice end not on a char boundary"
    | some q => .ok q.1

/-- The per-grapheme inner loop of `TextBuffer::hit` within a hit glyph:
subdivide the glyph's width uniformly over its clusters (`egc_w`), find the
cluster containing `x`, and move past it when the hit is in the half away
from the glyph's RTL side.  The source's `f32` arithmetic is modelled on
`Int` (`egc_w / 2.0` becomes `Int.tdiv`). -/
def egcScan (rtl : Bool) (x : Int) : Int → Int → List (Nat × List Nat) → Option Nat
  | _, _, [] => none
  | egcX, egcW, p :: rest =>
    if egcX ≤ x ∧ x ≤ egcX + egcW then
      let rightHalf := decide (egcX + Int.tdiv egcW 2 ≤ x)
      some (if rightHalf ≠ rtl then p.1 + byteLen p.2 else p.1)
    else egcScan rtl x (egcX + egcW) egcW rest

/-- The per-glyph loop of `TextBuffer::hit` within a hit row: find the glyph
whose horizontal extent contains `x`; inside it, run the grapheme scan, and
when no cluster matched, use the glyph-level half test (`new_cursor_char`
stays 0 or becomes `cluster.len()`).  Returns the byte index for the cursor,
or `none` when no glyph contains `x`. -/
def glyphScan (text : List Nat) (x : Int) : List LayoutGlyph → Except String (Option Nat)
  | [] => .ok none
  | g :: rest =>
    if g.x ≤ x ∧ x ≤ g.x + g.w then do
      let cluster ← sliceBytes text g.start g.stop
      let total := (graphemeIndices cluster).length
      let egcW := Int.tdiv g.w (Int.ofNat total)
      match egcScan g.rtl x g.x egcW (graphemeIndices cluster) with
      | some ncc => .ok (some (g.start + ncc))
      | none =>
        let rightHalf := decide (g.x + Int.tdiv g.w 2 ≤ x)
        .ok (some (g.start + (if rightHalf ≠ g.rtl then byteLen cluster else 0)))
    else glyphScan text x rest

/-- The cursor produced by `TextBuffer::hit` for the row whose vertical band
contains `y`: the glyph-scan result, else past the last glyph, else byte 0 on
an empty row. -/
def hitRun (run : TextLayoutRun) (x : Int) : Except String TextCursor := do
  match ← glyphScan run.text x run.glyphs with
  | some idx => .ok ⟨run.lineI, idx⟩
  | none =>
    match run.glyphs.getLast? with
    | some g => .ok ⟨run.lineI, g.stop⟩
    | none => .ok ⟨run.lineI, 0⟩

/-- The row loop of `TextBuffer::hit`: the first run whose vertical band
`[line_y - font_size, line_y - font_size + line_height)` contains `y` decides
the result; no matching band yields `none`. -/
def hitGo (fs lh x y : Int) : List TextLayoutRun → Except String (Option TextCursor)
  | [] => .ok none
  | r :: rest =>
    if r.lineY - fs ≤ y ∧ y < r.lineY - fs + lh then (hitRun r x).map some
    else hitGo fs lh x y rest

/-- `TextBuffer::hit(x, y)`: convert a position to a cursor. -/
def TextBuffer.hit (b : TextBuffer) (x y : Int) : Except String (Option TextCursor) :=
  hitGo b.metrics.fontSize b.metrics.lineHeight x y b.layoutRuns

/-! ## The `TextAction` state machine -/

/-- The `Previous` arm of `TextBuffer::action`: move to the previous cluster
within the line, or to the end of the previous line; always clears the
horizontal anchor. -/
def TextBuffer.actionPreviousArm (b : TextBuffer) : Except String TextBuffer := do
  let line ← b.line b.cursor.line
  let b ←
    if b.cursor.index > 0 then
      .ok { b with cursor := ⟨b.cursor.line, prevGraphemeIndex line.text b.cursor.index⟩
                   redraw := true }
    else if b.cursor.line > 0 then do
      let prevLine ← b.line (b.cursor.line - 1)
      .ok { b with cursor := ⟨b.cursor.line - 1, byteLen prevLine.text⟩, redraw := true }
    else .ok b
  .ok { b with cursorXOpt := none }

/-- The `Next` arm: move past the cluster starting at the cursor, or to the
start of the next line; always clears the horizontal anchor. -/
def TextBuffer.actionNextArm (b : TextBuffer) : Except String TextBuffer := do
  let line ← b.line b.cursor.line
  let b :=
    if b.cursor.index < byteLen line.text then
      match (graphemeIndices line.text).find? (fun p => p.1 == b.cursor.index) with
      | some p =>
        { b with cursor := ⟨b.cursor.line, b.cursor.index + byteLen p.2⟩, redraw := true }
      | none => b
    else if b.cursor.line + 1 < b.lines.length then
      { b with cursor := ⟨b.cursor.line + 1, 0⟩, redraw := true }
    else b
  .ok { b with cursorXOpt := none }

/-- The `Left` arm: `Next` on an RTL line, `Previous` on an LTR line, nothing
when the line has no shape cache.  The source recurses into `action`, whose
extra `cursor_moved` bookkeeping is idempotent and is applied once by
`TextBuffer.action` below. -/
def TextBuffer.actionLeftArm (b : TextBuffer) : Except String TextBuffer := do
  let line ← b.line b.cursor.line
  match line.shapeOpt with
  | some shape => if shape.rtl then b.actionNextArm else b.actionPreviousArm
  | none => .ok b

/-- The `Right` arm: mirror image of `Left`. -/
def TextBuffer.actionRightArm (b : TextBuffer) : Except String TextBuffer := do
  let line ← b.line b.cursor.line
  match line.shapeOpt with
  | some shape => if shape.rtl then b.actionPreviousArm else b.actionNextArm
  | none => .ok b

/-- The `Up` arm: one visual row up via the layout cursor, approximating the
horizontal anchor by the glyph index (`cursor_x_opt`); `as usize` on the
stored non-negative anchor is `Int.toNat`. -/
def TextBuffer.actionUpArm (sh : Shaper) (b : TextBuffer) : Except String TextBuffer := do
  let lc ← b.layoutCursor b.cursor
  let b := if b.cursorXOpt.isNone then { b with cursorXOpt := some (Int.ofNat lc.glyph) } else b
  let lc :=
    if lc.layout > 0 then { lc with layout := lc.layout - 1 }
    else if lc.line > 0 then { lc with line := lc.line - 1, layout := usizeMax }
    else lc
  let lc :=
    match b.cursorXOpt with
    | some cx => { lc with glyph := cx.toNat }
    | none => lc
  b.setLayoutCursor sh lc

/-- The `Down` arm: one visual row down; reads the current line's row count
through `line.layout` (computing and caching it if needed). -/
def TextBuffer.actionDownArm (sh : Shaper) (b : TextBuffer) : Except String TextBuffer := do
  let lc ← b.layoutCursor b.cursor
  let line ← b.line lc.line
  let p := line.layout sh b.metrics.fontSize b.width
  let b := b.setLine lc.line p.1
  let layoutLen := p.2.length
  let b := if b.cursorXOpt.isNone then { b with cursorXOpt := some (Int.ofNat lc.glyph) } else b
  let lc :=
    if lc.layout + 1 < layoutLen then { lc with layout := lc.layout + 1 }
    else if lc.line + 1 < b.lines.length then { lc with line := lc.line + 1, layout := 0 }
    else lc
  let lc :=
    match b.cursorXOpt with
    | some cx => { lc with glyph := cx.toNat }
    | none => lc
  b.setLayoutCursor sh lc

/-- The `Home` arm: glyph 0 on the current visual row. -/
def TextBuffer.actionHomeArm (sh : Shaper) (b : TextBuffer) : Except String TextBuffer := do
  let lc ← b.layoutCursor b.cursor
  let b ← b.setLayoutCursor sh { lc with glyph := 0 }
  .ok { b with cursorXOpt := none }

/-- The `End` arm: past the last glyph on the current visual row. -/
def TextBuffer.actionEndArm (sh : Shaper) (b : TextBuffer) : Except String TextBuffer := do
  let lc ← b.layoutCursor b.cursor
  let b ← b.setLayoutCursor sh { lc with glyph := usizeMax }
  .ok { b with cursorXOpt := none }

/-- The `PageUp` arm: scroll up one viewport height, then reshape. -/
def TextBuffer.actionPageUpArm (sh : Shaper) (b : TextBuffer) : Except String TextBuffer := do
  let lv ← b.visibleLinesE
  TextBuffer.shapeUntilScroll sh { b with scroll := b.scroll - lv, redraw := true }

/-- The `PageDown` arm: scroll down one viewport height, then reshape. -/
def TextBuffer.actionPageDownArm (sh : Shaper) (b : TextBuffer) : Except String TextBuffer := do
  let lv ← b.visibleLinesE
  TextBuffer.shapeUntilScroll sh { b with scroll := b.scroll + lv, redraw := true }

/-- The `Insert(character)` arm: control characters other than `'\t'` and
`'\u{92}'` are filtered out (no-op, logged); otherwise the line is split at
the cursor, a one-character line carrying the line's default attributes is
appended, the remainder is appended back, and the cursor advances by the
character's UTF-8 length. -/
def TextBuffer.actionInsertArm (b : TextBuffer) (c : Nat) : Except String TextBuffer :=
  if isControlChar c && !(c == 9 || c == 0x92) then .ok b
  else do
    let line ← b.line b.cursor.line
    let p ← line.splitOff b.cursor.index
    let line2 := p.1.append (TextBufferLine.new [c] (AttrsList.new p.1.attrsList.defaults))
    let line3 := line2.append p.2
    let b := b.setLine b.cursor.line line3
    .ok { b with cursor := ⟨b.cursor.line, b.cursor.index + charLenUtf8 c⟩ }

/-- The `Enter` arm: split the current line at the cursor and insert the new
line after it; the cursor moves to the new line's start. -/
def TextBuffer.actionEnterArm (b : TextBuffer) : Except String TextBuffer := do
  let line ← b.line b.cursor.line
  let p ← line.splitOff b.cursor.index
  let b := b.setLine b.cursor.line p.1
  .ok { b with cursor := ⟨b.cursor.line + 1, 0⟩
               lines := b.lines.insertIdx (b.cursor.line + 1) p.2 }

/-- The `Backspace` arm: with `index > 0`, split off the text after the
cursor, move the cursor to the previous char index, split off (and drop) the
removed character, and append the tail back; at the start of a non-first
line, remove the line and append it to the previous one, with the cursor at
the old end of the previous line. -/
def TextBuffer.actionBackspaceArm (b : TextBuffer) : Except String TextBuffer :=
  if b.cursor.index > 0 then do
    let line ← b.line b.cursor.line
    let p ← line.splitOff b.cursor.index
    let prev := prevCharIndex p.1.text b.cursor.index
    let q ← p.1.splitOff prev
    let b := b.setLine b.cursor.line (q.1.append p.2)
    .ok { b with cursor := ⟨b.cursor.line, prev⟩ }
  else if b.cursor.line > 0 then do
    let oldLine ← b.line b.cursor.line
    let lines2 := b.lines.eraseIdx b.cursor.line
    let li := b.cursor.line - 1
    let prevLine ←
      match lines2[li]? with
      | some l => Except.ok l
      | none => Except.error "index out of bounds"
    .ok { b with lines := lines2.set li (prevLine.append oldLine)
                 cursor := ⟨li, byteLen prevLine.text⟩ }
  else .ok b

/-- The `Delete` arm: locate the cluster at/after the cursor by a grapheme
scan (`take_while(i <= cursor.index).last`), split around it and rejoin; at
line end, merge the following line into this one. -/
def TextBuffer.actionDeleteArm (b : TextBuffer) : Except String TextBuffer := do
  let line ← b.line b.cursor.line
  if b.cursor.index < byteLen line.text then
    match ((graphemeIndices line.text).takeWhile (fun p => p.1 ≤ b.cursor.index)).getLast? with
    | some pr => do
      let p ← line.splitOff (pr.1 + byteLen pr.2)
      let q ← p.1.splitOff pr.1
      let b := b.setLine b.cursor.line (q.1.append p.2)
      .ok { b with cursor := ⟨b.cursor.line, pr.1⟩ }
    | none => .ok b
  else if b.cursor.line + 1 < b.lines.length then do
    let oldLine ← b.line (b.cursor.line + 1)
    let lines2 := b.lines.eraseIdx (b.cursor.line + 1)
    .ok { b with lines := lines2.set b.cursor.line (line.append oldLine) }
  else .ok b

/-- The `Click { x, y }` arm: clear the selection, then move the cursor via
hit testing when the position hits a row. -/
def TextBuffer.actionClickArm (b : TextBuffer) (x y : Int) : Except String TextBuffer := do
  let b := { b with selectOpt := none }
  match ← b.hit x y with
  | some nc => if nc ≠ b.cursor then .ok { b with cursor := nc, redraw := true } else .ok b
  | none => .ok b

/-- The `Drag { x, y }` arm: establish a selection anchor at the cursor when
none exists, then move the cursor via hit testing. -/
def TextBuffer.actionDragArm (b : TextBuffer) (x y : Int) : Except String TextBuffer := do
  let b := if b.selectOpt.isNone then { b with selectOpt := some b.cursor, redraw := true } else b
  match ← b.hit x y with
  | some nc => if nc ≠ b.cursor then .ok { b with cursor := nc, redraw := true } else .ok b
  | none => .ok b

/-- The `Scroll { lines }` arm: adjust `scroll` directly, then reshape. -/
def TextBuffer.actionScrollArm (sh : Shaper) (b : TextBuffer) (n : Int) : Except String TextBuffer :=
  TextBuffer.shapeUntilScroll sh { b with scroll := b.scroll + n, redraw := true }

/-- `TextBuffer::action`: dispatch to the arm, then set `cursor_moved` when
the cursor changed. -/
def TextBuffer.action (sh : Shaper) (b : TextBuffer) (a : TextAction) : Except String TextBuffer := do
  let oldCursor := b.cursor
  let b2 ←
    match a with
    | .previous => b.actionPreviousArm
    | .next => b.actionNextArm
    | .left => b.actionLeftArm
    | .right => b.actionRightArm
    | .up => b.actionUpArm sh
    | .down => b.actionDownArm sh
    | .home => b.actionHomeArm sh
    | .«end» => b.actionEndArm sh
    | .pageUp => b.actionPageUpArm sh
    | .pageDown => b.actionPageDownArm sh
    | .insert c => b.actionInsertArm c
    | .enter => b.actionEnterArm
    | .backspace => b.actionBackspaceArm
    | .delete => b.actionDeleteArm
    | .click x y => b.actionClickArm x y
    | .drag x y => b.actionDragArm x y
    | .scroll n => b.actionScrollArm sh n
  .ok { b2 with cursorMoved := if oldCursor ≠ b2.cursor then true else b2.cursorMoved }

/-! ## Validity predicates and concrete instances -/

/-- The spec's cursor invariant: `cursor.line < lines.len()`,
`cursor.index <= lines[cursor.line].text().len()`, and `cursor.index` on a
grapheme-cluster boundary of that line's text. -/
def TextBuffer.cursorValid (b : TextBuffer) : Bool :=
  match b.lines[b.cursor.line]? with
  | some l => decide (b.cursor.index ≤ byteLen l.text) && isGraphemeBoundary l.text b.cursor.index
  | none => false

/-- The char-level cursor invariant: as `cursorValid` but only requiring a
char (code point) boundary. -/
def TextBuffer.cursorCharValid (b : TextBuffer) : Bool :=
  match b.lines[b.cursor.line]? with
  | some l => decide (b.cursor.index ≤ byteLen l.text) && isCharBoundary l.text b.cursor.index
  | none => false

/-- Well-formedness of a layout for a given text: every glyph's byte range is
ordered, within the text, and on char boundaries.  This is the contract the
Shaper collaborator provides (spec 6: glyphs carry byte `start`/`end` into
the line text). -/
def LayoutWF (text : List Nat) (lay : List LayoutLine) : Prop :=
  ∀ row ∈ lay, ∀ g ∈ row.glyphs,
    g.start ≤ g.stop ∧ g.stop ≤ byteLen text ∧
      isCharBoundary text g.start = true ∧ isCharBoundary text g.stop = true

/-- A Shaper collaborator that always produces well-formed layouts. -/
def Shaper.WF (sh : Shaper) : Prop :=
  ∀ t al fs w, LayoutWF t (sh.layout t al fs w)

/-- Every cached layout in the buffer is well-formed for its line's text. -/
def TextBuffer.cachesWF (b : TextBuffer) : Prop :=
  ∀ l ∈ b.lines, ∀ lay, l.layoutOpt = some lay → LayoutWF l.text lay

/-- A trivial concrete Shaper for witnesses: LTR shape, one empty visual row
per line. -/
def shZero : Shaper := ⟨fun _ _ => ⟨false⟩, fun _ _ _ _ => [⟨[]⟩]⟩

/-- A fresh line with default attributes. -/
def mkLine (text : List Nat) : TextBufferLine :=
  TextBufferLine.new text (AttrsList.new Attrs.new)

/-- A small concrete buffer around the given lines and cursor. -/
def mkBuffer (lines : List TextBufferLine) (cursor : TextCursor) : TextBuffer :=
  { lines := lines
    metrics := ⟨14, 20⟩
    width := 100
    height := 100
    scroll := 0
    cursor := cursor
    cursorXOpt := none
    selectOpt := none
    cursorMoved := false
    redraw := false }

/-- The regional-indicator scalar `U+1F1E6`. -/
def riA : Nat := 0x1F1E6

/-- A buffer holding one line of four regional indicators (two flags), cursor
between the flags (byte 8, a cluster boundary). -/
def bufNearRI : TextBuffer := mkBuffer [mkLine [riA, riA, riA, riA]] ⟨0, 8⟩

/-- A buffer holding one line `"ae\u{301}"` with the cursor at its end
(byte 4); the final cluster is `"e\u{301}"` at bytes 1..4. -/
def bufAccent : TextBuffer := mkBuffer [mkLine [97, 101, 0x301]] ⟨0, 4⟩

/-- A buffer holding one empty line, cursor at its start. -/
def bufEmpty : TextBuffer := mkBuffer [mkLine []] ⟨0, 0⟩

/-- A buffer holding `["Hello", "World"]` with the cursor at `(0, 0)`. -/
def bufHello : TextBuffer :=
  mkBuffer [mkLine [72, 101, 108, 108, 111], mkLine [87, 111, 114, 108, 100]] ⟨0, 0⟩

/-- The `"Hello"`/`"World"` buffer with `Metrics::new(14, -1)` and
`height = i32::MIN` (the state `set_size(100, i32::MIN)` produces): the
`lines()` division `i32::MIN / -1` overflows. -/
def bufOverflow : TextBuffer := { bufHello with metrics := ⟨14, -1⟩, height := i32Min }

/-- Byte `b` is covered, with attributes `a`, by some span of the list. -/
def covers (spans : List AttrsSpan) (b : Nat) (a : Attrs) : Prop :=
  ∃ sp ∈ spans, sp.lo ≤ b ∧ b < sp.hi ∧ sp.attrs = a

/-- The adjacent ranges `b0..bs[0], bs[0]..bs[1], ...`: each range's start is
the previous range's end. -/
def chainRanges : Nat → List Nat → List (Nat × Nat)
  | _, [] => []
  | x, y :: ys => (x, y) :: chainRanges y ys

/-- A sequence of `add_span` calls with one attribute value. -/
def addSpans (l : AttrsList) (rs : List (Nat × Nat)) (a : Attrs) : AttrsList :=
  rs.foldl (fun acc r => acc.addSpan r.1 r.2 a) l

/-- The number of laid-out visual rows over a list of lines (lines without a
layout cache contribute zero). -/
def linesRows (ls : List TextBufferLine) : Int :=
  ((ls.map (fun l => (l.layoutOpt.getD []).length)).sum : Int)

/-- The total number of laid-out visual rows over all lines of the buffer. -/
def TextBuffer.totalRows (b : TextBuffer) : Int := linesRows b.lines

/-- The text of line `i`, when it exists. -/
def TextBuffer.lineText (b : TextBuffer) (i : Nat) : Option (List Nat) :=
  (b.lines[i]?).map (fun l => l.text)

/-! ## Theorems -/

theorem covers_nil (b : Nat) (a : Attrs) : ¬ covers [] b a := by
  simp [covers]

theorem covers_cons (sp : AttrsSpan) (l : List AttrsSpan) (b : Nat) (a : Attrs) :
    covers (sp :: l) b a ↔ (sp.lo ≤ b ∧ b < sp.hi ∧ sp.attrs = a) ∨ covers l b a := by
  simp [covers]

theorem splitSpans_keep {sp : AttrsSpan} {i : Nat} (rest : List AttrsSpan) (h : sp.hi ≤ i) :
    splitSpans i (sp :: rest) =
      (sp :: (splitSpans i rest).1, (splitSpans i rest).2) := by
  simp [splitSpans, h]

theorem splitSpans_move {sp : AttrsSpan} {i : Nat} (rest : List AttrsSpan)
    (h1 : ¬ sp.hi ≤ i) (h2 : i ≤ sp.lo) :
    splitSpans i (sp :: rest) =
      ((splitSpans i rest).1,
        ⟨sp.lo - i, sp.hi - i, sp.attrs⟩ :: (splitSpans i rest).2) := by
  simp [splitSpans, h1, h2]

theorem splitSpans_straddle {sp : AttrsSpan} {i : Nat} (rest : List AttrsSpan)
    (h1 : ¬ sp.hi ≤ i) (h2 : ¬ i ≤ sp.lo) :
    splitSpans i (sp :: rest) =
      (⟨sp.lo, i, sp.attrs⟩ :: (splitSpans i rest).1,
        ⟨0, sp.hi - i, sp.attrs⟩ :: (splitSpans i rest).2) := by
  simp [splitSpans, h1, h2]

theorem covers_splitSpans_fst (i : Nat) (spans : List AttrsSpan) (b : Nat) (a : Attrs) :
    covers (splitSpans i spans).1 b a ↔ (covers spans b a ∧ b < i) := by
  induction spans with
  | nil => simp [splitSpans, covers]
  | cons sp rest ih =>
    by_cases h1 : sp.hi ≤ i
    · rw [splitSpans_keep rest h1]
      simp only [covers_cons, ih]
      constructor
      · rintro (h | h)
        · exact ⟨Or.inl h, by omega⟩
        · exact ⟨Or.inr h.1, h.2⟩
      · rintro ⟨h | h, hb⟩
        · exact Or.inl h
        · exact Or.inr ⟨h, hb⟩
    · by_cases h2 : i ≤ sp.lo
      · rw [splitSpans_move rest h1 h2]
        simp only [covers_cons, ih]
        constructor
        · intro h
          exact ⟨Or.inr h.1, h.2⟩
        · rintro ⟨h | h, hb⟩
          · omega
          · exact ⟨h, hb⟩
      · rw [splitSpans_straddle rest h1 h2]
        simp only [covers_cons, ih]
        constructor
        · rintro (h | h)
          · exact ⟨Or.inl ⟨h.1, by omega, h.2.2⟩, by omega⟩
          · exact ⟨Or.inr h.1, h.2⟩
        · rintro ⟨h | h, hb⟩
          · exact Or.inl ⟨h.1, by omega, h.2.2⟩
          · exact Or.inr ⟨h, hb⟩

theorem covers_splitSpans_snd (i : Nat) (spans : List AttrsSpan) (c : Nat) (a : Attrs) :
    covers (splitSpans i spans).2 c a ↔ covers spans (c + i) a := by
  induction spans with
  | nil => simp [splitSpans, covers]
  | cons sp rest ih =>
    by_cases h1 : sp.hi ≤ i
    · rw [splitSpans_keep rest h1]
      simp only [covers_cons, ih]
      constructor
      · exact Or.inr
      · rintro (h | h)
        · omega
        · exact h
    · by_cases h2 : i ≤ sp.lo
      · rw [splitSpans_move rest h1 h2]
        simp only [covers_cons, ih]
        constructor
        · rintro (h | h)
          · exact Or.inl ⟨by omega, by omega, h.2.2⟩
          · exact Or.inr h
        · rintro (h | h)
          · exact Or.inl ⟨by omega, by omega, h.2.2⟩
          · exact Or.inr h
      · rw [splitSpans_straddle rest h1 h2]
        simp only [covers_cons, ih]
        constructor
        · rintro (h | h)
          · exact Or.inl ⟨by omega, by omega, h.2.2⟩
          · exact Or.inr h
        · rintro (h | h)
          · exact Or.inl ⟨by omega, by omega, h.2.2⟩
          · exact Or.inr h

/-- C6: `split_off(index)` preserves total coverage.  A byte covered with
attributes `a` by a span of the original list is covered in exactly one of
the two resulting lists — below `index` in the retained list unchanged, at or
above `index` in the new list rebased by `-index` — and the retained list
never covers a byte at or beyond `index`, so the cut introduces no gap and no
overlap at the split point. -/
theorem attrsList_splitOff_coverage (l : AttrsList) (index b : Nat) (a : Attrs) :
    (covers l.spans b a ↔
      ((b < index ∧ covers (l.splitOff index).1.spans b a) ∨
        (index ≤ b ∧ covers (l.splitOff index).2.spans (b - index) a)))
    ∧ (covers (l.splitOff index).1.spans b a → b < index) := by
  simp only [AttrsList.splitOff]
  have h1 := covers_splitSpans_fst index l.spans b a
  have h2 := covers_splitSpans_snd index l.spans (b - index) a
  constructor
  · constructor
    · intro h
      by_cases hb : b < index
      · exact Or.inl ⟨hb, h1.mpr ⟨h, hb⟩⟩
      · refine Or.inr ⟨by omega, h2.mpr ?_⟩
        have he : b - index + index = b := by omega
        rw [he]
        exact h
    · rintro (⟨hb, h⟩ | ⟨hb, h⟩)
      · exact (h1.mp h).1
      · have hc := h2.mp h
        have he : b - index + index = b := by omega
        rwa [he] at hc
  · intro h
    exact (h1.mp h).2

/-- Witness for C6 at a concrete list with a straddling span: the span
`2..7` split at `4`, queried at byte `5`. -/
theorem attrsList_splitOff_coverage_witness :
    (covers ((AttrsList.new Attrs.new).addSpan 2 7 Attrs.new).spans 5 Attrs.new ↔
      ((5 < 4 ∧
          covers (((AttrsList.new Attrs.new).addSpan 2 7 Attrs.new).splitOff 4).1.spans 5
            Attrs.new) ∨
        (4 ≤ 5 ∧
          covers (((AttrsList.new Attrs.new).addSpan 2 7 Attrs.new).splitOff 4).2.spans (5 - 4)
            Attrs.new)))
    ∧ (covers (((AttrsList.new Attrs.new).addSpan 2 7 Attrs.new).splitOff 4).1.spans 5
        Attrs.new → 5 < 4) :=
  attrsList_splitOff_coverage ((AttrsList.new Attrs.new).addSpan 2 7 Attrs.new) 4 5 Attrs.new

theorem condense_pair (s x y : Nat) (a : Attrs) :
    condenseSpans [⟨s, x, a⟩, ⟨x, y, a⟩] = [⟨s, y, a⟩] := by
  simp [condenseSpans]

theorem addSpan_single (d : Attrs) (s x y : Nat) (a : Attrs) :
    AttrsList.addSpan ⟨d, [⟨s, x, a⟩]⟩ x y a = ⟨d, [⟨s, y, a⟩]⟩ := by
  simp [AttrsList.addSpan, condense_pair]

theorem chain_fold (d a : Attrs) (bs : List Nat) :
    ∀ (s x bl : Nat), bs.getLast? = some bl →
      (addSpans ⟨d, [⟨s, x, a⟩]⟩ (chainRanges x bs) a).spans = [⟨s, bl, a⟩] := by
  induction bs with
  | nil => intro s x bl h; simp at h
  | cons y ys ih =>
    intro s x bl hlast
    cases ys with
    | nil =>
      simp at hlast
      subst hlast
      simp [addSpans, chainRanges, addSpan_single]
    | cons z zs =>
      rw [List.getLast?_cons_cons] at hlast
      have hstep :
          addSpans ⟨d, [⟨s, x, a⟩]⟩ (chainRanges x (y :: z :: zs)) a =
            addSpans ⟨d, [⟨s, y, a⟩]⟩ (chainRanges y (z :: zs)) a := by
        simp [addSpans, chainRanges, addSpan_single]
      rw [hstep]
      exact ih s y bl hlast

/-- C7: a sequence of `add_span` calls with adjacent ranges (each range's
start is the previous range's end) and one attribute value, applied to a
fresh list, leaves exactly one merged span from the first start to the last
end. -/
theorem addSpan_adjacent_merge (d a : Attrs) (b0 : Nat) (bs : List Nat) (bl : Nat)
    (h : bs.getLast? = some bl) :
    (addSpans (AttrsList.new d) (chainRanges b0 bs) a).spans = [⟨b0, bl, a⟩] := by
  cases bs with
  | nil => simp at h
  | cons y ys =>
    have h0 : (AttrsList.new d).addSpan b0 y a = ⟨d, [⟨b0, y, a⟩]⟩ := by
      simp [AttrsList.new, AttrsList.addSpan, condenseSpans]
    cases ys with
    | nil =>
      simp at h
      subst h
      simp [addSpans, chainRanges, h0]
    | cons z zs =>
      rw [List.getLast?_cons_cons] at h
      have hstep :
          addSpans (AttrsList.new d) (chainRanges b0 (y :: z :: zs)) a =
            addSpans ⟨d, [⟨b0, y, a⟩]⟩ (chainRanges y (z :: zs)) a := by
        simp [addSpans, chainRanges, h0]
      rw [hstep]
      exact chain_fold d a (z :: zs) b0 y bl h

/-- Witness for C7: `add_span(0..5, A)` then `add_span(5..10, A)` on a fresh
list yields exactly `[(0..10, A)]`. -/
theorem addSpan_adjacent_merge_witness :
    (addSpans (AttrsList.new Attrs.new) (chainRanges 0 [5, 10]) Attrs.new).spans =
      [⟨0, 10, Attrs.new⟩] :=
  addSpan_adjacent_merge Attrs.new Attrs.new 0 [5, 10] 10 rfl

theorem layout_fst (l : TextBufferLine) (sh : Shaper) (fs w : Int) :
    (l.layout sh fs w).1.layoutOpt = some (l.layout sh fs w).2 ∧
      (l.layout sh fs w).1.text = l.text := by
  cases h : l.layoutOpt <;> simp [TextBufferLine.layout, h]

theorem linesRows_nonneg (ls : List TextBufferLine) : 0 ≤ linesRows ls := by
  simp only [linesRows]
  induction ls with
  | nil => simp
  | cons l rest ih =>
    simp only [List.map_cons, List.sum_cons]
    have h0 : (0 : Int) ≤ ((l.layoutOpt.getD []).length : Int) := Int.natCast_nonneg _
    omega

theorem linesRows_cons (l : TextBufferLine) (ls : List TextBufferLine) :
    linesRows (l :: ls) = ((l.layoutOpt.getD []).length : Int) + linesRows ls := by
  simp [linesRows]

theorem shapeUntilGo_rows (sh : Shaper) (fs w budget : Int) :
    ∀ (ls : List TextBufferLine) (total : Int) (resh : Nat),
      (shapeUntilGo sh fs w budget ls total resh).2.1 - total ≤
        linesRows (shapeUntilGo sh fs w budget ls total resh).1 := by
  intro ls
  induction ls with
  | nil =>
    intro total resh
    simp [shapeUntilGo, linesRows]
  | cons l rest ih =>
    intro total resh
    by_cases hb : budget ≤ total
    · simp only [shapeUntilGo, if_pos hb]
      have h0 := linesRows_nonneg (l :: rest)
      omega
    · simp only [shapeUntilGo, if_neg hb]
      have hq := ih (total + ((l.layout sh fs w).2.length : Int))
        (if l.shapeOpt.isNone = true then resh + 1 else resh)
      have hopt := (layout_fst l sh fs w).1
      rw [linesRows_cons, hopt]
      simp only [Option.getD_some]
      omega

/-- C2: after `shape_until_scroll`, the scroll offset satisfies
`0 <= scroll <= max(0, total_visual_rows - visible_rows + 1)`, where
`visible_rows` is `lines()` (`height / line_height`) and `total_visual_rows`
counts all laid-out rows of the buffer. -/
theorem shapeUntilScroll_scroll_in_range (sh : Shaper) (b b2 : TextBuffer) (lv : Int)
    (hlv : b.visibleLines = some lv) (hok : b.shapeUntilScroll sh = .ok b2) :
    0 ≤ b2.scroll ∧ b2.scroll ≤ max 0 (b2.totalRows - lv + 1) := by
  simp only [TextBuffer.shapeUntilScroll, TextBuffer.visibleLinesE, hlv,
    TextBuffer.shapeUntil, bind, Except.bind, Except.ok.injEq] at hok
  subst hok
  have hrows := shapeUntilGo_rows sh b.metrics.fontSize b.width (b.scroll + lv) b.lines 0 0
  simp only [TextBuffer.totalRows]
  constructor
  · exact le_max_left 0 _
  · omega

/-- Witness for C2: the two-line `"Hello"`/`"World"` buffer with five visible
rows reshapes to an in-range scroll. -/
theorem shapeUntilScroll_scroll_in_range_witness :
    ∃ b2, bufHello.shapeUntilScroll shZero = .ok b2 ∧ 0 ≤ b2.scroll ∧
      b2.scroll ≤ max 0 (b2.totalRows - 5 + 1) := by
  have hok : (bufHello.shapeUntilScroll shZero).isOk = true := by decide
  obtain ⟨b2, hb2⟩ : ∃ b2, bufHello.shapeUntilScroll shZero = .ok b2 := by
    cases hh : bufHello.shapeUntilScroll shZero with
    | ok v => exact ⟨v, rfl⟩
    | error e =>
      rw [hh] at hok
      simp [Except.isOk, Except.toBool] at hok
  exact ⟨b2, hb2, shapeUntilScroll_scroll_in_range shZero bufHello b2 5 (by decide) hb2⟩

/-- When `lines()` evaluates without panicking, `shape_until_scroll`
succeeds and preserves the metrics and the height. -/
theorem shapeUntilScroll_ok_of_some (sh : Shaper) (b : TextBuffer) (lv : Int)
    (hlv : b.visibleLines = some lv) :
    ∃ b2, b.shapeUntilScroll sh = .ok b2 ∧ b2.metrics = b.metrics ∧ b2.height = b.height := by
  simp only [TextBuffer.shapeUntilScroll, TextBuffer.visibleLinesE, hlv,
    TextBuffer.shapeUntil, bind, Except.bind]
  exact ⟨_, rfl, rfl, rfl⟩

/-- Counterexample to C9: with `line_height = -1` (nonzero) and
`height = i32::MIN` — the state `Metrics::new(14, -1)` plus
`set_size(100, i32::MIN)` produces — the `i32` division in `lines()`
overflows and panics, so the division is not total under
`line_height != 0` alone; `PageUp` aborts, and `set_size` reaches the
panic from an in-range height. -/
theorem visibleLines_overflow_cex :
    bufOverflow.metrics.lineHeight ≠ 0 ∧
    bufOverflow.visibleLines = none ∧
    (TextBuffer.action shZero bufOverflow .pageUp).isOk = false ∧
    (TextBuffer.setSize shZero { bufHello with metrics := ⟨14, -1⟩ } 100 i32Min).isOk
      = false := by
  decide

/-- C9 (amended): `lines()` divides `height / line_height` with no guard,
and Rust `i32` division panics both on a zero divisor and on signed
overflow (`i32::MIN / -1`), modelled as `none`/`.error`;
`shape_until_scroll`, `shape_until_cursor`, the `PageUp`/`PageDown`/
`Scroll` actions and a size-changing `set_size` all reach the division and
inherit both preconditions; the overflow state is reachable through the
public API by `set_size(_, i32::MIN)` under `line_height = -1`; outside
the two panic cases the division is total. -/
theorem visibleLines_total_iff (sh : Shaper) (b : TextBuffer) (n w h : Int) :
    (b.metrics.lineHeight = 0 →
      b.visibleLines = none ∧
        (b.shapeUntilScroll sh).isOk = false ∧
        (b.shapeUntilCursor sh).isOk = false ∧
        (b.action sh .pageUp).isOk = false ∧
        (b.action sh .pageDown).isOk = false ∧
        (b.action sh (.scroll n)).isOk = false ∧
        (w ≠ b.width → (b.setSize sh w h).isOk = false)) ∧
    (b.height = i32Min ∧ b.metrics.lineHeight = -1 →
      b.visibleLines = none ∧
        (b.shapeUntilScroll sh).isOk = false ∧
        (b.shapeUntilCursor sh).isOk = false ∧
        (b.action sh .pageUp).isOk = false ∧
        (b.action sh .pageDown).isOk = false ∧
        (b.action sh (.scroll n)).isOk = false) ∧
    (b.metrics.lineHeight = -1 → b.height ≠ i32Min →
      (b.setSize sh w i32Min).isOk = false) ∧
    (b.metrics.lineHeight ≠ 0 → ¬(b.height = i32Min ∧ b.metrics.lineHeight = -1) →
      (b.visibleLines).isSome = true) := by
  refine ⟨?_, ?_, ?_, ?_⟩
  · intro hz
    have hvl : b.visibleLines = none := by simp [TextBuffer.visibleLines, hz]
    have hsus : ∀ b' : TextBuffer, b'.metrics = b.metrics →
        ∃ e, b'.shapeUntilScroll sh = .error e := by
      intro b' hm
      refine ⟨"division panic in lines()", ?_⟩
      simp [TextBuffer.shapeUntilScroll, TextBuffer.visibleLinesE, TextBuffer.visibleLines,
        hm, hz, bind, Except.bind]
    obtain ⟨e0, he0⟩ := hsus b rfl
    refine ⟨hvl, ?_, ?_, ?_, ?_, ?_, ?_⟩
    · simp [he0, Except.isOk, Except.toBool]
    · simp [TextBuffer.shapeUntilCursor, TextBuffer.visibleLinesE, TextBuffer.visibleLines, hz,
        bind, Except.bind, Except.isOk, Except.toBool]
    · simp [TextBuffer.action, TextBuffer.actionPageUpArm, TextBuffer.visibleLinesE,
        TextBuffer.visibleLines, hz, bind, Except.bind, Except.isOk, Except.toBool]
    · simp [TextBuffer.action, TextBuffer.actionPageDownArm, TextBuffer.visibleLinesE,
        TextBuffer.visibleLines, hz, bind, Except.bind, Except.isOk, Except.toBool]
    · obtain ⟨e2, he2⟩ := hsus { b with scroll := b.scroll + n, redraw := true } rfl
      simp [TextBuffer.action, TextBuffer.actionScrollArm, he2, bind, Except.bind,
        Except.isOk, Except.toBool]
    · intro hw
      obtain ⟨e3, he3⟩ := hsus (({ b with width := w } : TextBuffer).relayout sh) rfl
      simp [TextBuffer.setSize, hw, he3, bind, Except.bind, Except.isOk, Except.toBool]
  · rintro ⟨hh, hm1⟩
    have hvl : b.visibleLines = none := by simp [TextBuffer.visibleLines, hm1, hh]
    have hsus : ∀ b' : TextBuffer, b'.metrics = b.metrics → b'.height = b.height →
        ∃ e, b'.shapeUntilScroll sh = .error e := by
      intro b' hm hht
      refine ⟨"division panic in lines()", ?_⟩
      simp [TextBuffer.shapeUntilScroll, TextBuffer.visibleLinesE, TextBuffer.visibleLines,
        hm, hht, hm1, hh, bind, Except.bind]
    obtain ⟨e0, he0⟩ := hsus b rfl rfl
    refine ⟨hvl, ?_, ?_, ?_, ?_, ?_⟩
    · simp [he0, Except.isOk, Except.toBool]
    · simp [TextBuffer.shapeUntilCursor, TextBuffer.visibleLinesE, TextBuffer.visibleLines,
        hm1, hh, bind, Except.bind, Except.isOk, Except.toBool]
    · simp [TextBuffer.action, TextBuffer.actionPageUpArm, TextBuffer.visibleLinesE,
        TextBuffer.visibleLines, hm1, hh, bind, Except.bind, Except.isOk, Except.toBool]
    · simp [TextBuffer.action, TextBuffer.actionPageDownArm, TextBuffer.visibleLinesE,
        TextBuffer.visibleLines, hm1, hh, bind, Except.bind, Except.isOk, Except.toBool]
    · obtain ⟨e2, he2⟩ := hsus { b with scroll := b.scroll + n, redraw := true } rfl rfl
      simp [TextBuffer.action, TextBuffer.actionScrollArm, he2, bind, Except.bind,
        Except.isOk, Except.toBool]
  · intro hm1 hhne
    have hvs : b.visibleLines = some (Int.tdiv b.height b.metrics.lineHeight) := by
      simp [TextBuffer.visibleLines, hm1, hhne]
    by_cases hw : w = b.width
    · have herr : ({ b with height := i32Min } : TextBuffer).shapeUntilScroll sh
          = .error "division panic in lines()" := by
        simp [TextBuffer.shapeUntilScroll, TextBuffer.visibleLinesE, TextBuffer.visibleLines,
          hm1, bind, Except.bind]
      simp [TextBuffer.setSize, hw, herr, Ne.symm hhne, bind, Except.bind,
        Except.isOk, Except.toBool]
    · have hb1 : (({ b with width := w } : TextBuffer).relayout sh).visibleLines
          = some (Int.tdiv b.height b.metrics.lineHeight) := hvs
      obtain ⟨b2, hb2, hb2m, hb2h⟩ := shapeUntilScroll_ok_of_some sh _ _ hb1
      have hm2 : b2.metrics.lineHeight = -1 := by rw [hb2m]; exact hm1
      have herr2 : ({ b2 with height := i32Min } : TextBuffer).shapeUntilScroll sh
          = .error "division panic in lines()" := by
        simp [TextBuffer.shapeUntilScroll, TextBuffer.visibleLinesE, TextBuffer.visibleLines,
          hm2, bind, Except.bind]
      have hne2 : i32Min ≠ b2.height := by rw [hb2h]; exact Ne.symm hhne
      simp [TextBuffer.setSize, hw, hb2, herr2, hne2, bind, Except.bind,
        Except.isOk, Except.toBool]
  · intro hnz hnOv
    rw [TextBuffer.visibleLines, if_neg hnz, if_neg hnOv]
    rfl

/-- Witness for C9: a zero line height makes `lines()` undefined and `PageUp`
panic; `line_height = -1` with `height = i32::MIN` panics too and is reached
by `set_size(50, i32::MIN)` from an in-range height, while the default
metrics make the division total. -/
theorem visibleLines_total_iff_witness :
    ({ bufHello with metrics := ⟨14, 0⟩ } : TextBuffer).visibleLines = none ∧
      (TextBuffer.action shZero { bufHello with metrics := ⟨14, 0⟩ } .pageUp).isOk = false ∧
      (TextBuffer.action shZero { bufHello with metrics := ⟨14, 0⟩ } (.scroll 3)).isOk = false ∧
      bufOverflow.visibleLines = none ∧
      (TextBuffer.action shZero bufOverflow .pageDown).isOk = false ∧
      (TextBuffer.setSize shZero { bufHello with metrics := ⟨14, -1⟩ } 50 i32Min).isOk
        = false ∧
      (bufHello.visibleLines).isSome = true := by
  have h1 := (visibleLines_total_iff shZero { bufHello with metrics := ⟨14, 0⟩ } 3 5 7).1
    (by decide)
  have h2 := (visibleLines_total_iff shZero bufOverflow 3 5 7).2.1 (by decide)
  have h3 := (visibleLines_total_iff shZero { bufHello with metrics := ⟨14, -1⟩ } 3 50 7).2.2.1
    (by decide) (by decide)
  have h4 := (visibleLines_total_iff shZero bufHello 3 5 7).2.2.2 (by decide) (by decide)
  exact ⟨h1.1, h1.2.2.2.1, h1.2.2.2.2.2.1, h2.1, h2.2.2.2.2.1, h3, h4⟩

/-- C10: when `hit(x, y)` finds no visual row whose vertical band contains
`y`, `Click { x, y }` still clears the selection anchor and leaves the
cursor, the lines, and the scroll unchanged: the state changes only by
`select_opt = None`. -/
theorem click_miss_clears_selection (sh : Shaper) (b : TextBuffer) (x y : Int)
    (hmiss : b.hit x y = .ok none) :
    b.action sh (.click x y) = .ok { b with selectOpt := none } := by
  have hsame : TextBuffer.hit { b with selectOpt := none } x y = b.hit x y := rfl
  simp [TextBuffer.action, TextBuffer.actionClickArm, hsame, hmiss, bind, Except.bind]

/-- Witness for C10: the unshaped two-line buffer has no visible rows, so any
click misses and only clears the selection. -/
theorem click_miss_clears_selection_witness :
    TextBuffer.action shZero bufHello (.click 5 5) = .ok { bufHello with selectOpt := none } :=
  click_miss_clears_selection shZero bufHello 5 5 rfl

/-- C5 (amended): an absent cache short-circuits the visible-row iterator —
a buffer whose first line lacks its shape or layout cache produces no rows —
but `layout_cursor` does not short-circuit: it unwraps the absent layout
cache and panics (so `Up`/`Down`/`Home`/`End` abort). -/
theorem cacheNotReady_behavior (b : TextBuffer) (c : TextCursor) (l0 : TextBufferLine) :
    (∀ l, b.lines[c.line]? = some l → l.layoutOpt = none →
      b.layoutCursor c = .error "unwrap of absent layout cache in layout_cursor") ∧
    (b.lines.head? = some l0 → (l0.shapeOpt = none ∨ l0.layoutOpt = none) →
      b.layoutRuns = []) := by
  constructor
  · intro l h1 h2
    simp [TextBuffer.layoutCursor, TextBuffer.line, h1, h2, bind, Except.bind]
  · intro hhead hcache
    obtain ⟨rest, hrest⟩ : ∃ rest, b.lines = l0 :: rest := by
      cases hl : b.lines with
      | nil => rw [hl] at hhead; simp at hhead
      | cons a as =>
        rw [hl] at hhead
        simp at hhead
        exact ⟨as, by rw [hhead]⟩
    have hflat : flatRows 0 b.lines = [] := by
      rw [hrest]
      rcases hcache with h | h
      · simp [flatRows, h]
      · cases hs : l0.shapeOpt <;> simp [flatRows, h, hs]
    simp [TextBuffer.layoutRuns, hflat, emitRuns]

/-- Witness for C5: on the unshaped `"Hello"`/`"World"` buffer the iterator
yields no rows while `layout_cursor` panics. -/
theorem cacheNotReady_behavior_witness :
    bufHello.layoutCursor ⟨0, 5⟩ = .error "unwrap of absent layout cache in layout_cursor" ∧
      bufHello.layoutRuns = [] := by
  have h := cacheNotReady_behavior bufHello ⟨0, 5⟩ (mkLine [72, 101, 108, 108, 111])
  exact ⟨h.1 (mkLine [72, 101, 108, 108, 111]) rfl rfl, h.2 rfl (Or.inl rfl)⟩

/-- Counterexample for C5 as stated: `layout_cursor` (and hence the `Up`
navigation action) does not treat the absent layout cache as a recoverable
no-op; on a buffer whose line has no layout cache it aborts. -/
theorem cacheNotReady_cex :
    (bufHello.lines[0]?).map (fun l => l.layoutOpt) = some none ∧
      (bufHello.layoutCursor ⟨0, 0⟩).isOk = false ∧
      (TextBuffer.action shZero bufHello .up).isOk = false := by
  refine ⟨rfl, ?_, ?_⟩ <;> decide

theorem charLen_pos (c : Nat) : 1 ≤ charLenUtf8 c := by
  unfold charLenUtf8
  split_ifs <;> norm_num

theorem byteLen_nil : byteLen [] = 0 := rfl

theorem byteLen_cons (c : Nat) (s : List Nat) :
    byteLen (c :: s) = charLenUtf8 c + byteLen s := by
  simp [byteLen]

theorem byteLen_append (a t : List Nat) : byteLen (a ++ t) = byteLen a + byteLen t := by
  simp [byteLen]

theorem splitAtByte_zero (s : List Nat) : splitAtByte s 0 = some ([], s) := by
  unfold splitAtByte
  simp

theorem splitAtByte_some {s : List Nat} {i : Nat} {p : List Nat × List Nat}
    (h : splitAtByte s i = some p) : s = p.1 ++ p.2 ∧ byteLen p.1 = i := by
  induction s generalizing i p with
  | nil =>
    unfold splitAtByte at h
    by_cases hi : i = 0
    · subst hi
      simp at h
      subst h
      exact ⟨rfl, rfl⟩
    · simp [hi] at h
  | cons c rest ih =>
    unfold splitAtByte at h
    by_cases hi : i = 0
    · subst hi
      simp at h
      subst h
      exact ⟨rfl, rfl⟩
    · simp only [if_neg hi] at h
      by_cases hle : charLenUtf8 c ≤ i
      · simp only [if_pos hle, Option.map_eq_some'] at h
        obtain ⟨q, hq, hp⟩ := h
        obtain ⟨hs, hb⟩ := ih hq
        subst hp
        constructor
        · simp only [List.cons_append]
          rw [← hs]
        · simp only [byteLen_cons, hb]
          omega
      · simp [hle] at h

theorem splitAtByte_append (a t : List Nat) : splitAtByte (a ++ t) (byteLen a) = some (a, t) := by
  induction a with
  | nil => simp [splitAtByte_zero, byteLen]
  | cons c a2 ih =>
    have hpos := charLen_pos c
    unfold splitAtByte
    rw [byteLen_cons]
    have hne : ¬ (charLenUtf8 c + byteLen a2 = 0) := by omega
    have hle : charLenUtf8 c ≤ charLenUtf8 c + byteLen a2 := by omega
    simp only [List.cons_append, if_neg hne, if_pos hle]
    have harith : charLenUtf8 c + byteLen a2 - charLenUtf8 c = byteLen a2 := by omega
    rw [harith, ih]
    rfl

theorem splitAtByte_add (a t : List Nat) (k : Nat) :
    splitAtByte (a ++ t) (byteLen a + k) =
      (splitAtByte t k).map (fun p => (a ++ p.1, p.2)) := by
  induction a with
  | nil =>
    simp only [List.nil_append, byteLen_nil, Nat.zero_add]
    cases splitAtByte t k <;> simp
  | cons c a2 ih =>
    have hpos := charLen_pos c
    conv =>
      lhs
      unfold splitAtByte
    rw [byteLen_cons]
    have hne : ¬ (charLenUtf8 c + byteLen a2 + k = 0) := by omega
    have hle : charLenUtf8 c ≤ charLenUtf8 c + byteLen a2 + k := by omega
    simp only [List.cons_append, if_neg hne, if_pos hle]
    have harith : charLenUtf8 c + byteLen a2 + k - charLenUtf8 c = byteLen a2 + k := by omega
    rw [harith, ih]
    cases splitAtByte t k <;> simp

theorem isCharBoundary_append (a t : List Nat) : isCharBoundary (a ++ t) (byteLen a) = true := by
  simp [isCharBoundary, splitAtByte_append]

theorem isCharBoundary_len (s : List Nat) : isCharBoundary s (byteLen s) = true := by
  have h := splitAtByte_append s []
  simp only [List.append_nil] at h
  simp [isCharBoundary, h]

theorem isCharBoundary_zero (s : List Nat) : isCharBoundary s 0 = true := by
  simp [isCharBoundary, splitAtByte_zero]

theorem isCharBoundary_le {s : List Nat} {i : Nat} (h : isCharBoundary s i = true) :
    i ≤ byteLen s := by
  simp only [isCharBoundary, Option.isSome_iff_exists] at h
  obtain ⟨p, hp⟩ := h
  obtain ⟨hs, hb⟩ := splitAtByte_some hp
  rw [hs, byteLen_append]
  omega

theorem splitSpans_fst_hi_le (i : Nat) (l : List AttrsSpan) :
    ∀ sp ∈ (splitSpans i l).1, sp.hi ≤ i := by
  induction l with
  | nil => simp [splitSpans]
  | cons sp rest ih =>
    by_cases h1 : sp.hi ≤ i
    · rw [splitSpans_keep rest h1]
      intro sp2 h2
      rcases List.mem_cons.mp h2 with h3 | h3
      · subst h3
        exact h1
      · exact ih sp2 h3
    · by_cases h2 : i ≤ sp.lo
      · rw [splitSpans_move rest h1 h2]
        exact ih
      · rw [splitSpans_straddle rest h1 h2]
        intro sp2 h3
        rcases List.mem_cons.mp h3 with h4 | h4
        · subst h4
          exact le_refl i
        · exact ih sp2 h4

theorem getSpan_defaults_of_no_contain (al : AttrsList) (lo hi : Nat)
    (h : ∀ sp ∈ al.spans, ¬ (sp.lo ≤ lo ∧ hi ≤ sp.hi)) :
    al.getSpan lo hi = al.defaults := by
  unfold AttrsList.getSpan
  have hnone : al.spans.reverse.find?
      (fun sp => decide (sp.lo ≤ lo) && decide (hi ≤ sp.hi)) = none := by
    apply List.find?_eq_none.mpr
    intro sp hsp
    have hmem := List.mem_reverse.mp hsp
    have hns := h sp hmem
    simp only [Bool.and_eq_true, decide_eq_true_eq]
    exact hns
  rw [hnone]

theorem inserted_getSpan (al : AttrsList) (index clen : Nat) (hclen : 1 ≤ clen) :
    AttrsList.getSpan
      ⟨al.defaults,
        (al.splitOff index).1.spans ++
          (al.splitOff index).2.spans.map
            (fun sp => ⟨sp.lo + (index + clen), sp.hi + (index + clen), sp.attrs⟩)⟩
      index (index + clen) = al.defaults := by
  apply getSpan_defaults_of_no_contain
  intro sp hsp
  rcases List.mem_append.mp hsp with h | h
  · have hle : sp.hi ≤ index := by
      have := splitSpans_fst_hi_le index al.spans sp
      simp only [AttrsList.splitOff] at h
      exact this h
    omega
  · obtain ⟨sp0, hsp0, hshift⟩ := List.mem_map.mp h
    subst hshift
    simp only []
    omega

/-- C3 (amended): `Insert(c)` is a no-op for every control character other
than `'\t'` and `'\u{92}'` (the source's filter list contains both); every
other character — including `'\t'` and `'\u{92}'` — is inserted at the
cursor, the cursor advances by exactly `c.len_utf8()`, and the inserted byte
range carries no span, so `get_span` resolves it to the line's existing
default style. -/
theorem insert_policy (sh : Shaper) (b : TextBuffer) (c : Nat) :
    (isControlChar c = true → c ≠ 9 → c ≠ 0x92 → b.action sh (.insert c) = .ok b) ∧
    ((isControlChar c && !(c == 9 || c == 0x92)) = false →
      ∀ l a t, b.lines[b.cursor.line]? = some l →
        splitAtByte l.text b.cursor.index = some (a, t) →
        ∃ b2, b.action sh (.insert c) = .ok b2 ∧
          b2.cursor = ⟨b.cursor.line, b.cursor.index + charLenUtf8 c⟩ ∧
          ∃ l2, b2.lines[b.cursor.line]? = some l2 ∧
            l2.text = a ++ c :: t ∧
            l2.attrsList.defaults = l.attrsList.defaults ∧
            l2.attrsList.getSpan b.cursor.index (b.cursor.index + charLenUtf8 c) =
              l.attrsList.defaults) := by
  constructor
  · intro hc h9 h92
    have hcond : (isControlChar c && !(c == 9 || c == 0x92)) = true := by
      simp [hc, h9, h92]
    simp [TextBuffer.action, TextBuffer.actionInsertArm, hcond, hc, h9, h92, bind, Except.bind]
  · intro hcond l a t hl hsplit
    have hlt : b.cursor.line < b.lines.length := by
      rw [List.getElem?_eq_some] at hl
      exact hl.1
    have hba : byteLen a = b.cursor.index := (splitAtByte_some hsplit).2
    simp only [TextBuffer.action, TextBuffer.actionInsertArm, hcond, Bool.false_eq_true,
      if_false, TextBuffer.line, hl, TextBufferLine.splitOff, hsplit,
      TextBufferLine.append, TextBufferLine.new, TextBuffer.setLine,
      bind, Except.bind, Except.ok.injEq, AttrsList.new]
    refine ⟨_, rfl, rfl, _, List.getElem?_set_self hlt, ?_, ?_, ?_⟩
    · simp
    · simp [AttrsList.splitOff]
    · have hb2 : byteLen (a ++ [c]) = b.cursor.index + charLenUtf8 c := by
        rw [byteLen_append, byteLen_cons, byteLen_nil, hba]
        omega
      have hkey := inserted_getSpan l.attrsList b.cursor.index (charLenUtf8 c) (charLen_pos c)
      simp only [AttrsList.splitOff] at hkey
      simp only [AttrsList.splitOff, List.map_nil, List.append_nil, hb2]
      exact hkey

/-- Witness for C3: the control character `U+0007` is rejected as a no-op,
while `'X'` (88) is inserted into `"Hello"` at the cursor with the default
style and a one-byte cursor advance. -/
theorem insert_policy_witness :
    TextBuffer.action shZero bufHello (.insert 7) = .ok bufHello ∧
      ∃ b2, TextBuffer.action shZero bufHello (.insert 88) = .ok b2 ∧
        b2.cursor = ⟨0, 1⟩ ∧
        ∃ l2, b2.lines[0]? = some l2 ∧
          l2.text = [88, 72, 101, 108, 108, 111] ∧
          l2.attrsList.defaults = Attrs.new ∧
          l2.attrsList.getSpan 0 1 = Attrs.new := by
  constructor
  · exact (insert_policy shZero bufHello 7).1 (by decide) (by decide) (by decide)
  · exact (insert_policy shZero bufHello 88).2 (by decide)
      (mkLine [72, 101, 108, 108, 111]) [] [72, 101, 108, 108, 111] rfl rfl

/-- Counterexample for C3 as stated: `'\u{92}'` is a control character and is
not `'\t'`, yet `Insert('\u{92}')` is not a no-op — the source's filter list
is `['\t', '\u{92}']`, so `'\u{92}'` gets inserted and the line text
changes. -/
theorem insert_control_cex :
    isControlChar 0x92 = true ∧ (0x92 : Nat) ≠ 9 ∧
      (TextBuffer.action shZero bufEmpty (.insert 0x92)).toOption.map
          (fun b2 => (b2.lineText 0, b2.cursor.index)) =
        some (some [0x92], 2) ∧
      bufEmpty.lineText 0 = some [] := by
  refine ⟨by decide, by decide, by decide, by decide⟩

theorem charIndicesFrom_append (o : Nat) (u v : List Nat) :
    charIndicesFrom o (u ++ v) = charIndicesFrom o u ++ charIndicesFrom (o + byteLen u) v := by
  induction u generalizing o with
  | nil => simp [charIndicesFrom, byteLen_nil]
  | cons c u2 ih =>
    simp only [List.cons_append, charIndicesFrom, List.append_eq, byteLen_cons]
    rw [ih, Nat.add_assoc]

theorem prevCharIndex_concat (a2 : List Nat) (cl i : Nat) (h : byteLen a2 < i) :
    prevCharIndex (a2 ++ [cl]) i = byteLen a2 := by
  unfold prevCharIndex charIndices
  rw [charIndicesFrom_append, List.foldl_append]
  simp [charIndicesFrom, h]

theorem backspace_char_spec (sh : Shaper) (b : TextBuffer) (l : TextBufferLine)
    (a2 : List Nat) (cl : Nat) (t : List Nat) (hpos : 0 < b.cursor.index)
    (hl : b.lines[b.cursor.line]? = some l)
    (hsplit : splitAtByte l.text b.cursor.index = some (a2 ++ [cl], t)) :
    ∃ b2, b.action sh .backspace = .ok b2 ∧
      b2.cursor = ⟨b.cursor.line, byteLen a2⟩ ∧
      b2.lineText b.cursor.line = some (a2 ++ t) ∧
      b2.lines.length = b.lines.length := by
  have hlt : b.cursor.line < b.lines.length := by
    rw [List.getElem?_eq_some] at hl
    exact hl.1
  have hba : byteLen (a2 ++ [cl]) = b.cursor.index := (splitAtByte_some hsplit).2
  have hlen : byteLen a2 < b.cursor.index := by
    rw [← hba, byteLen_append, byteLen_cons, byteLen_nil]
    have := charLen_pos cl
    omega
  have hprev : prevCharIndex (a2 ++ [cl]) b.cursor.index = byteLen a2 :=
    prevCharIndex_concat a2 cl b.cursor.index hlen
  simp only [TextBuffer.action, TextBuffer.actionBackspaceArm, if_pos hpos,
    TextBuffer.line, hl, TextBufferLine.splitOff, hsplit, hprev,
    splitAtByte_append, TextBufferLine.append, TextBuffer.setLine,
    bind, Except.bind, Except.ok.injEq]
  refine ⟨_, rfl, rfl, ?_, ?_⟩
  · simp only [TextBuffer.lineText, List.getElem?_set_self hlt, Option.map_some']
  · simp

theorem insert_ok_spec (sh : Shaper) (b : TextBuffer) (c : Nat)
    (hcond : (isControlChar c && !(c == 9 || c == 0x92)) = false)
    (l : TextBufferLine) (a t : List Nat)
    (hl : b.lines[b.cursor.line]? = some l)
    (hsplit : splitAtByte l.text b.cursor.index = some (a, t)) :
    ∃ b1, b.action sh (.insert c) = .ok b1 ∧
      b1.cursor = ⟨b.cursor.line, b.cursor.index + charLenUtf8 c⟩ ∧
      b1.lines.length = b.lines.length ∧
      ∃ l2, b1.lines[b.cursor.line]? = some l2 ∧ l2.text = (a ++ [c]) ++ t := by
  have hlt : b.cursor.line < b.lines.length := by
    rw [List.getElem?_eq_some] at hl
    exact hl.1
  simp only [TextBuffer.action, TextBuffer.actionInsertArm, hcond, Bool.false_eq_true,
    if_false, TextBuffer.line, hl, TextBufferLine.splitOff, hsplit,
    TextBufferLine.append, TextBufferLine.new, TextBuffer.setLine,
    bind, Except.bind, Except.ok.injEq, AttrsList.new]
  refine ⟨_, rfl, rfl, ?_, _, List.getElem?_set_self hlt, rfl⟩
  simp

/-- C4 (amended): with `cursor.index > 0`, `Backspace` deletes exactly the
char (code point) immediately before the cursor — not necessarily a whole
grapheme cluster — and moves the cursor to that char's start; with
`cursor.index == 0` on a non-first line it merges the current line into the
previous one, placing the cursor at the previous line's old text length. -/
theorem backspace_behavior (sh : Shaper) (b : TextBuffer) :
    (∀ l a2 cl t, 0 < b.cursor.index →
      b.lines[b.cursor.line]? = some l →
      splitAtByte l.text b.cursor.index = some (a2 ++ [cl], t) →
      ∃ b2, b.action sh .backspace = .ok b2 ∧
        b2.cursor = ⟨b.cursor.line, byteLen a2⟩ ∧
        b2.lineText b.cursor.line = some (a2 ++ t) ∧
        b2.lines.length = b.lines.length) ∧
    (b.cursor.index = 0 → 0 < b.cursor.line →
      ∀ lp lc, b.lines[b.cursor.line - 1]? = some lp → b.lines[b.cursor.line]? = some lc →
      ∃ b2, b.action sh .backspace = .ok b2 ∧
        b2.cursor = ⟨b.cursor.line - 1, byteLen lp.text⟩ ∧
        b2.lineText (b.cursor.line - 1) = some (lp.text ++ lc.text) ∧
        b2.lines.length = b.lines.length - 1) := by
  constructor
  · intro l a2 cl t hpos hl hsplit
    have hlt : b.cursor.line < b.lines.length := by
      rw [List.getElem?_eq_some] at hl
      exact hl.1
    have hba : byteLen (a2 ++ [cl]) = b.cursor.index := (splitAtByte_some hsplit).2
    have hlen : byteLen a2 < b.cursor.index := by
      rw [← hba, byteLen_append, byteLen_cons, byteLen_nil]
      have := charLen_pos cl
      omega
    have hprev : prevCharIndex (a2 ++ [cl]) b.cursor.index = byteLen a2 :=
      prevCharIndex_concat a2 cl b.cursor.index hlen
    simp only [TextBuffer.action, TextBuffer.actionBackspaceArm, if_pos hpos,
      TextBuffer.line, hl, TextBufferLine.splitOff, hsplit, hprev,
      splitAtByte_append, TextBufferLine.append, TextBuffer.setLine,
      bind, Except.bind, Except.ok.injEq]
    refine ⟨_, rfl, rfl, ?_, ?_⟩
    · simp only [TextBuffer.lineText, List.getElem?_set_self hlt, Option.map_some']
    · simp
  · intro hz hline lp lc hlp hlc
    have hlt : b.cursor.line < b.lines.length := by
      rw [List.getElem?_eq_some] at hlc
      exact hlc.1
    have hnpos : ¬ 0 < b.cursor.index := by omega
    have hlp2 : (b.lines.eraseIdx b.cursor.line)[b.cursor.line - 1]? = some lp := by
      rw [List.getElem?_eraseIdx_of_lt b.lines b.cursor.line (b.cursor.line - 1) (by omega)]
      exact hlp
    simp only [TextBuffer.action, TextBuffer.actionBackspaceArm, if_neg hnpos, if_pos hline,
      TextBuffer.line, hlc, hlp2, TextBufferLine.append,
      bind, Except.bind, Except.ok.injEq]
    have hlen2 : b.cursor.line - 1 < (b.lines.eraseIdx b.cursor.line).length := by
      rw [List.length_eraseIdx_of_lt hlt]
      omega
    refine ⟨_, rfl, rfl, ?_, ?_⟩
    · simp only [TextBuffer.lineText, List.getElem?_set_self hlen2, Option.map_some']
    · simp only [List.length_set, List.length_eraseIdx_of_lt hlt]

/-- Witness for C4: deleting the char before the cursor at the end of
`"Hello"`, and merging `"World"` into `"Hello"` from cursor `(1, 0)` with the
cursor landing at the join point `(0, 5)`. -/
theorem backspace_behavior_witness :
    (∃ b2, TextBuffer.action shZero (mkBuffer [mkLine [72, 101, 108, 108, 111]] ⟨0, 5⟩)
        .backspace = .ok b2 ∧
      b2.cursor = ⟨0, 4⟩ ∧
      b2.lineText 0 = some [72, 101, 108, 108] ∧
      b2.lines.length = 1) ∧
    (∃ b2, TextBuffer.action shZero
        (mkBuffer [mkLine [72, 101, 108, 108, 111], mkLine [87, 111, 114, 108, 100]] ⟨1, 0⟩)
        .backspace = .ok b2 ∧
      b2.cursor = ⟨0, 5⟩ ∧
      b2.lineText 0 = some [72, 101, 108, 108, 111, 87, 111, 114, 108, 100] ∧
      b2.lines.length = 1) := by
  constructor
  · exact (backspace_behavior shZero (mkBuffer [mkLine [72, 101, 108, 108, 111]] ⟨0, 5⟩)).1
      (mkLine [72, 101, 108, 108, 111]) [72, 101, 108, 108] 111 [] (by decide) rfl (by decide)
  · exact (backspace_behavior shZero
      (mkBuffer [mkLine [72, 101, 108, 108, 111], mkLine [87, 111, 114, 108, 100]] ⟨1, 0⟩)).2
      rfl (by decide) (mkLine [72, 101, 108, 108, 111]) (mkLine [87, 111, 114, 108, 100]) rfl rfl

/-- Counterexample for C4 as stated: on the line `"ae\u{301}"` with the
cursor at its end (byte 4, a grapheme boundary), the cluster immediately
before the cursor is `"e\u{301}"` at bytes 1..4, so deleting it would leave
`"a"` with the cursor at 1; the code instead deletes only the final code
point `U+0301`, leaving `"ae"` with the cursor at 2. -/
theorem backspace_grapheme_cex :
    isGraphemeBoundary [97, 101, 0x301] 4 = true ∧
      (graphemeIndices [97, 101, 0x301]).getLast? = some (1, [101, 0x301]) ∧
      (TextBuffer.action shZero bufAccent .backspace).toOption.map
          (fun b2 => (b2.lineText 0, b2.cursor.index)) =
        some (some [97, 101], 2) ∧
      ¬ ((some [97, 101], 2) = ((some [97] : Option (List Nat)), 1)) := by
  refine ⟨by decide, by decide, by decide, by decide⟩


/-- C8: on any buffer state with a valid cursor (the cursor splits its line's
text at a char boundary), `Insert('X')` immediately followed by `Backspace`
restores the current line's text and the cursor to their pre-insert
values. -/
theorem insert_backspace_roundtrip (sh : Shaper) (b : TextBuffer) (l : TextBufferLine)
    (a t : List Nat) (hl : b.lines[b.cursor.line]? = some l)
    (hsplit : splitAtByte l.text b.cursor.index = some (a, t)) :
    ∃ b1 b2, b.action sh (.insert 88) = .ok b1 ∧
      TextBuffer.action sh b1 .backspace = .ok b2 ∧
      b2.lineText b.cursor.line = some l.text ∧ b2.cursor = b.cursor := by
  have hba : byteLen a = b.cursor.index := (splitAtByte_some hsplit).2
  have hsl : l.text = a ++ t := (splitAtByte_some hsplit).1
  obtain ⟨b1, hb1, hcur, hlen, l2, hl2, htext⟩ :=
    insert_ok_spec sh b 88 (by decide) l a t hl hsplit
  have hcl : b1.cursor.line = b.cursor.line := by rw [hcur]
  have hci : b1.cursor.index = b.cursor.index + 1 := by
    rw [hcur]
    norm_num [charLenUtf8]
  have hpos : 0 < b1.cursor.index := by omega
  have hl2b : b1.lines[b1.cursor.line]? = some l2 := by rw [hcl]; exact hl2
  have hsp2 : splitAtByte l2.text b1.cursor.index = some (a ++ [88], t) := by
    rw [htext, hci]
    have hblen : byteLen (a ++ [88]) = b.cursor.index + 1 := by
      rw [byteLen_append, byteLen_cons, byteLen_nil, hba]
      norm_num [charLenUtf8]
    rw [← hblen]
    exact splitAtByte_append (a ++ [88]) t
  obtain ⟨b2, hb2, hcur2, htext2, _⟩ :=
    backspace_char_spec sh b1 l2 a 88 t hpos hl2b hsp2
  refine ⟨b1, b2, hb1, hb2, ?_, ?_⟩
  · rw [hcl] at htext2
    rw [htext2, hsl]
  · rw [hcur2, hcl, hba]

/-- Witness for C8: inserting `'X'` into `"Hello"` at `(0, 0)` and
backspacing restores the line and cursor. -/
theorem insert_backspace_roundtrip_witness :
    ∃ b1 b2, TextBuffer.action shZero bufHello (.insert 88) = .ok b1 ∧
      TextBuffer.action shZero b1 .backspace = .ok b2 ∧
      b2.lineText 0 = some [72, 101, 108, 108, 111] ∧ b2.cursor = ⟨0, 0⟩ :=
  insert_backspace_roundtrip shZero bufHello (mkLine [72, 101, 108, 108, 111]) []
    [72, 101, 108, 108, 111] rfl rfl

theorem segFold_flatten (s : List Nat) :
    ∀ acc : List (List Nat) × List Nat,
      (s.foldl segStep acc).1.flatten ++ (s.foldl segStep acc).2 =
        acc.1.flatten ++ acc.2 ++ s := by
  induction s with
  | nil => intro acc; simp
  | cons c rest ih =>
    intro acc
    rw [List.foldl_cons, ih (segStep acc c)]
    have hstep : (segStep acc c).1.flatten ++ (segStep acc c).2 =
        acc.1.flatten ++ acc.2 ++ [c] := by
      obtain ⟨done, cur⟩ := acc
      cases cur with
      | nil => simp [segStep]
      | cons c0 cs =>
        by_cases hext : isExtendCh c = true
        · simp [segStep, hext]
        · cases cs with
          | nil =>
            by_cases hri : (isRI c0 && isRI c) = true
            · simp [segStep, hext, hri]
            · simp [segStep, hext, hri]
          | cons c1 cs2 => simp [segStep, hext]
    calc (segStep acc c).1.flatten ++ (segStep acc c).2 ++ rest
        = acc.1.flatten ++ acc.2 ++ [c] ++ rest := by rw [hstep]
      _ = acc.1.flatten ++ acc.2 ++ (c :: rest) := by simp

theorem graphemes_flatten (s : List Nat) : (graphemes s).flatten = s := by
  unfold graphemes
  have h := segFold_flatten s ([], [])
  simp only [List.flatten_nil, List.nil_append] at h
  by_cases hc : (s.foldl segStep ([], [])).2 = []
  · simp only [hc, if_pos rfl]
    rw [hc, List.append_nil] at h
    simpa using h
  · simp only [if_neg hc]
    rw [List.flatten_append]
    simpa using h

theorem withOffsets_mem {o0 : Nat} {gs : List (List Nat)} {o : Nat} {g : List Nat}
    (h : (o, g) ∈ withOffsets o0 gs) :
    ∃ pre suf, gs = pre ++ g :: suf ∧ o = o0 + byteLen pre.flatten := by
  induction gs generalizing o0 with
  | nil => simp [withOffsets] at h
  | cons g0 gs2 ih =>
    simp only [withOffsets, List.mem_cons, Prod.mk.injEq] at h
    rcases h with ⟨ho, hg⟩ | h
    · exact ⟨[], gs2, by simp [hg], by simp [ho, byteLen_nil]⟩
    · obtain ⟨pre, suf, hgs, ho⟩ := ih h
      refine ⟨g0 :: pre, suf, by simp [hgs], ?_⟩
      rw [ho]
      simp [byteLen_append]
      omega

theorem graphemeIndices_split {s : List Nat} {o : Nat} {g : List Nat}
    (h : (o, g) ∈ graphemeIndices s) :
    ∃ pre suf, s = pre ++ g ++ suf ∧ o = byteLen pre := by
  obtain ⟨pre, suf, hgs, ho⟩ := withOffsets_mem h
  refine ⟨pre.flatten, suf.flatten, ?_, by omega⟩
  conv =>
    lhs
    rw [← graphemes_flatten s]
  rw [hgs]
  simp

theorem graphemeIndices_boundary {s : List Nat} {o : Nat} {g : List Nat}
    (h : (o, g) ∈ graphemeIndices s) :
    isCharBoundary s o = true ∧ isCharBoundary s (o + byteLen g) = true ∧
      o + byteLen g ≤ byteLen s := by
  obtain ⟨pre, suf, hs, ho⟩ := graphemeIndices_split h
  subst ho
  refine ⟨?_, ?_, ?_⟩
  · rw [hs, List.append_assoc]
    exact isCharBoundary_append pre (g ++ suf)
  · rw [hs, ← byteLen_append]
    exact isCharBoundary_append (pre ++ g) suf
  · rw [hs, byteLen_append, byteLen_append]
    omega

theorem graphemeBoundary_charBoundary {s : List Nat} {i : Nat}
    (h : isGraphemeBoundary s i = true) : isCharBoundary s i = true := by
  unfold isGraphemeBoundary at h
  rcases Bool.or_eq_true_iff.mp h with h1 | h1
  · have h2 : i = byteLen s := by simpa using h1
    rw [h2]
    exact isCharBoundary_len s
  · rw [List.any_eq_true] at h1
    obtain ⟨p, hp, hpi⟩ := h1
    obtain ⟨p1, p2⟩ := p
    have h2 : p1 = i := by simpa using hpi
    rw [← h2]
    exact (graphemeIndices_boundary hp).1

theorem prevFold_mem (i : Nat) (l : List (Nat × List Nat)) :
    ∀ acc : Nat,
      l.foldl (fun acc p => if p.1 < i then p.1 else acc) acc = acc ∨
        ∃ p ∈ l, l.foldl (fun acc p => if p.1 < i then p.1 else acc) acc = p.1 := by
  induction l with
  | nil => intro acc; exact Or.inl rfl
  | cons p0 l2 ih =>
    intro acc
    rw [List.foldl_cons]
    rcases ih (if p0.1 < i then p0.1 else acc) with h | h
    · rw [h]
      by_cases hp : p0.1 < i
      · exact Or.inr ⟨p0, List.mem_cons_self p0 l2, by rw [if_pos hp]⟩
      · rw [if_neg hp]
        exact Or.inl rfl
    · obtain ⟨p, hp, hfold⟩ := h
      exact Or.inr ⟨p, List.mem_cons_of_mem p0 hp, hfold⟩

theorem prevGraphemeIndex_boundary (s : List Nat) (i : Nat) :
    isCharBoundary s (prevGraphemeIndex s i) = true ∧ prevGraphemeIndex s i ≤ byteLen s := by
  unfold prevGraphemeIndex
  rcases prevFold_mem i (graphemeIndices s) 0 with h | h
  · rw [h]
    exact ⟨isCharBoundary_zero s, Nat.zero_le _⟩
  · obtain ⟨p, hp, hfold⟩ := h
    rw [hfold]
    obtain ⟨p1, p2⟩ := p
    have hb := graphemeIndices_boundary hp
    exact ⟨hb.1, by have := hb.2.2; omega⟩

theorem isCharBoundary_append_right {u : List Nat} {i : Nat} (v : List Nat)
    (h : isCharBoundary u i = true) : isCharBoundary (u ++ v) i = true := by
  simp only [isCharBoundary, Option.isSome_iff_exists] at h
  obtain ⟨p, hp⟩ := h
  obtain ⟨hu, hb⟩ := splitAtByte_some hp
  rw [hu, List.append_assoc, ← hb]
  exact isCharBoundary_append p.1 (p.2 ++ v)

theorem isCharBoundary_shift {v : List Nat} {k : Nat} (u : List Nat)
    (h : isCharBoundary v k = true) : isCharBoundary (u ++ v) (byteLen u + k) = true := by
  simp only [isCharBoundary, splitAtByte_add]
  simp only [isCharBoundary] at h
  cases hsp : splitAtByte v k with
  | none => rw [hsp] at h; simp at h
  | some p => simp

theorem cursorValid_elim {b : TextBuffer} (hv : b.cursorValid = true) :
    ∃ l, b.lines[b.cursor.line]? = some l ∧ b.cursor.index ≤ byteLen l.text ∧
      isGraphemeBoundary l.text b.cursor.index = true := by
  unfold TextBuffer.cursorValid at hv
  cases hl : b.lines[b.cursor.line]? with
  | none => rw [hl] at hv; simp at hv
  | some l =>
    rw [hl] at hv
    simp only [Bool.and_eq_true, decide_eq_true_eq] at hv
    exact ⟨l, rfl, hv.1, hv.2⟩

theorem cursorCharValid_intro {b : TextBuffer} {l : TextBufferLine}
    (hl : b.lines[b.cursor.line]? = some l)
    (hb : isCharBoundary l.text b.cursor.index = true) : b.cursorCharValid = true := by
  unfold TextBuffer.cursorCharValid
  rw [hl]
  simp only [Bool.and_eq_true, decide_eq_true_eq]
  exact ⟨isCharBoundary_le hb, hb⟩

theorem cursorValid_charValid {b : TextBuffer} (hv : b.cursorValid = true) :
    b.cursorCharValid = true := by
  obtain ⟨l, hl, _, hgb⟩ := cursorValid_elim hv
  exact cursorCharValid_intro hl (graphemeBoundary_charBoundary hgb)

theorem prevArm_valid {b : TextBuffer} (hv : b.cursorValid = true) :
    ∀ c, b.actionPreviousArm = .ok c → c.cursorCharValid = true := by
  intro c hok
  obtain ⟨l, hl, hle, hgb⟩ := cursorValid_elim hv
  have hlt : b.cursor.line < b.lines.length := by
    rw [List.getElem?_eq_some] at hl
    exact hl.1
  simp only [TextBuffer.actionPreviousArm, TextBuffer.line, hl, bind, Except.bind] at hok
  by_cases hpos : b.cursor.index > 0
  · rw [if_pos hpos] at hok
    simp only [Except.ok.injEq] at hok
    subst hok
    exact cursorCharValid_intro hl (prevGraphemeIndex_boundary l.text b.cursor.index).1
  · rw [if_neg hpos] at hok
    by_cases hline : b.cursor.line > 0
    · rw [if_pos hline] at hok
      have hlt2 : b.cursor.line - 1 < b.lines.length := by omega
      rw [List.getElem?_eq_getElem hlt2] at hok
      simp only [Except.ok.injEq] at hok
      subst hok
      exact cursorCharValid_intro (List.getElem?_eq_getElem hlt2) (isCharBoundary_len _)
    · rw [if_neg hline] at hok
      simp only [Except.ok.injEq] at hok
      subst hok
      exact cursorCharValid_intro hl (graphemeBoundary_charBoundary hgb)

theorem nextArm_valid {b : TextBuffer} (hv : b.cursorValid = true) :
    ∀ c, b.actionNextArm = .ok c → c.cursorCharValid = true := by
  intro c hok
  obtain ⟨l, hl, hle, hgb⟩ := cursorValid_elim hv
  simp only [TextBuffer.actionNextArm, TextBuffer.line, hl, bind, Except.bind] at hok
  by_cases hpos : b.cursor.index < byteLen l.text
  · rw [if_pos hpos] at hok
    cases hfind : (graphemeIndices l.text).find? (fun p => p.1 == b.cursor.index) with
    | none =>
      rw [hfind] at hok
      simp only [Except.ok.injEq] at hok
      subst hok
      exact cursorCharValid_intro hl (graphemeBoundary_charBoundary hgb)
    | some p =>
      rw [hfind] at hok
      simp only [Except.ok.injEq] at hok
      subst hok
      have hmem := List.mem_of_find?_eq_some hfind
      have hpred := List.find?_some hfind
      obtain ⟨p1, p2⟩ := p
      have hp1 : p1 = b.cursor.index := by simpa using hpred
      subst hp1
      exact cursorCharValid_intro hl (graphemeIndices_boundary hmem).2.1
  · rw [if_neg hpos] at hok
    by_cases hnext : b.cursor.line + 1 < b.lines.length
    · rw [if_pos hnext] at hok
      simp only [Except.ok.injEq] at hok
      subst hok
      exact cursorCharValid_intro (List.getElem?_eq_getElem hnext) (isCharBoundary_zero _)
    · rw [if_neg hnext] at hok
      simp only [Except.ok.injEq] at hok
      subst hok
      exact cursorCharValid_intro hl (graphemeBoundary_charBoundary hgb)

theorem cursorCharValid_elim {b : TextBuffer} (h : b.cursorCharValid = true) :
    ∃ l, b.lines[b.cursor.line]? = some l ∧ b.cursor.index ≤ byteLen l.text ∧
      isCharBoundary l.text b.cursor.index = true := by
  unfold TextBuffer.cursorCharValid at h
  cases hl : b.lines[b.cursor.line]? with
  | none => rw [hl] at h; simp at h
  | some l =>
    rw [hl] at h
    simp only [Bool.and_eq_true, decide_eq_true_eq] at h
    exact ⟨l, rfl, h.1, h.2⟩

theorem cursorCharValid_setLine_textEq {b : TextBuffer} {i : Nat} {l l2 : TextBufferLine}
    (hl : b.lines[i]? = some l) (ht : l2.text = l.text) (h : b.cursorCharValid = true) :
    (b.setLine i l2).cursorCharValid = true := by
  have hlt : i < b.lines.length := by
    rw [List.getElem?_eq_some] at hl
    exact hl.1
  obtain ⟨l0, hl0, hle0, hcb0⟩ := cursorCharValid_elim h
  by_cases hi : b.cursor.line = i
  · have hsame : l0 = l := by
      rw [hi, hl] at hl0
      exact (Option.some.injEq _ _ ▸ hl0).symm ▸ rfl
    refine cursorCharValid_intro (b := b.setLine i l2) (l := l2) ?_ ?_
    · show (b.lines.set i l2)[b.cursor.line]? = some l2
      rw [hi]
      exact List.getElem?_set_self hlt
    · show isCharBoundary l2.text b.cursor.index = true
      rw [ht, ← hsame]
      exact hcb0
  · refine cursorCharValid_intro (b := b.setLine i l2) (l := l0) ?_ ?_
    · show (b.lines.set i l2)[b.cursor.line]? = some l0
      rw [List.getElem?_set_ne (fun he => hi he.symm)]
      exact hl0
    · exact hcb0

theorem setLayoutCursor_valid {sh : Shaper} {b : TextBuffer} (hsh : sh.WF)
    (hwf : b.cachesWF) (hv : b.cursorCharValid = true) (lc : TextLayoutCursor) :
    ∀ c, b.setLayoutCursor sh lc = .ok c → c.cursorCharValid = true := by
  intro c hok
  cases hl : b.lines[lc.line]? with
  | none =>
    simp only [TextBuffer.setLayoutCursor, TextBuffer.line, hl, bind, Except.bind] at hok
    exact absurd hok (by simp)
  | some l => ?_
  have hlt : lc.line < b.lines.length := by
    rw [List.getElem?_eq_some] at hl
    exact hl.1
  have hmem : l ∈ b.lines := List.getElem?_mem hl
  have hfst := layout_fst l sh b.metrics.fontSize b.width
  have hlay : LayoutWF l.text (l.layout sh b.metrics.fontSize b.width).2 := by
    cases hopt : l.layoutOpt with
    | some lay =>
      have h2 := hwf l hmem lay hopt
      have h3 : (l.layout sh b.metrics.fontSize b.width).2 = lay := by
        simp [TextBufferLine.layout, hopt]
      rw [h3]
      exact h2
    | none =>
      have h3 : (l.layout sh b.metrics.fontSize b.width).2 =
          sh.layout l.text l.attrsList b.metrics.fontSize b.width := by
        simp [TextBufferLine.layout, hopt]
      rw [h3]
      exact hsh l.text l.attrsList b.metrics.fontSize b.width
  simp only [TextBuffer.setLayoutCursor, TextBuffer.line, hl, bind, Except.bind] at hok
  have hfinish : ∀ newIndex, isCharBoundary l.text newIndex = true →
      (if (b.setLine lc.line (l.layout sh b.metrics.fontSize b.width).1).cursor.line ≠ lc.line ∨
          (b.setLine lc.line (l.layout sh b.metrics.fontSize b.width).1).cursor.index ≠ newIndex
        then (Except.ok { b.setLine lc.line (l.layout sh b.metrics.fontSize b.width).1 with
          cursor := ⟨lc.line, newIndex⟩, redraw := true } : Except String TextBuffer)
        else Except.ok (b.setLine lc.line (l.layout sh b.metrics.fontSize b.width).1)) =
        Except.ok c →
      c.cursorCharValid = true := by
    intro newIndex hbnd hif
    by_cases hcond : (b.setLine lc.line (l.layout sh b.metrics.fontSize b.width).1).cursor.line ≠
        lc.line ∨
        (b.setLine lc.line (l.layout sh b.metrics.fontSize b.width).1).cursor.index ≠ newIndex
    · rw [if_pos hcond] at hif
      simp only [Except.ok.injEq] at hif
      subst hif
      refine cursorCharValid_intro (l := (l.layout sh b.metrics.fontSize b.width).1) ?_ ?_
      · simp only [TextBuffer.setLine]
        exact List.getElem?_set_self hlt
      · rw [hfst.2]
        exact hbnd
    · rw [if_neg hcond] at hif
      simp only [Except.ok.injEq] at hif
      subst hif
      exact cursorCharValid_setLine_textEq hl hfst.2 hv
  have hrowWF : ∀ r0, r0 ∈ (l.layout sh b.metrics.fontSize b.width).2 →
      ∀ g ∈ r0.glyphs, isCharBoundary l.text g.start = true ∧
        isCharBoundary l.text g.stop = true := by
    intro r0 hr0 g hg
    exact ⟨(hlay r0 hr0 g hg).2.2.1, (hlay r0 hr0 g hg).2.2.2⟩
  have hnewIndex : ∀ r0, r0 ∈ (l.layout sh b.metrics.fontSize b.width).2 →
      isCharBoundary l.text
        (match r0.glyphs[lc.glyph]? with
          | some g => g.start
          | none => match r0.glyphs.getLast? with
            | some g => g.stop
            | none => 0) = true := by
    intro r0 hr0
    cases hg : r0.glyphs[lc.glyph]? with
    | some g => exact (hrowWF r0 hr0 g (List.getElem?_mem hg)).1
    | none =>
      cases hgl : r0.glyphs.getLast? with
      | some g => exact (hrowWF r0 hr0 g (List.mem_of_mem_getLast? hgl)).2
      | none => exact isCharBoundary_zero l.text
  cases hrow : (l.layout sh b.metrics.fontSize b.width).2[lc.layout]? with
  | some r0 =>
    rw [hrow] at hok
    exact hfinish _ (hnewIndex r0 (List.getElem?_mem hrow)) hok
  | none =>
    rw [hrow] at hok
    cases hlast : (l.layout sh b.metrics.fontSize b.width).2.getLast? with
    | some r0 =>
      rw [hlast] at hok
      exact hfinish _ (hnewIndex r0 (List.mem_of_mem_getLast? hlast)) hok
    | none =>
      rw [hlast] at hok
      simp at hok

theorem layout_result_wf {sh : Shaper} (hsh : sh.WF) {ls : List TextBufferLine}
    (hwf : ∀ l ∈ ls, ∀ lay, l.layoutOpt = some lay → LayoutWF l.text lay)
    {l : TextBufferLine} (hmem : l ∈ ls) (fs w : Int) :
    LayoutWF l.text (l.layout sh fs w).2 := by
  cases hopt : l.layoutOpt with
  | some lay =>
    have h2 := hwf l hmem lay hopt
    have h3 : (l.layout sh fs w).2 = lay := by simp [TextBufferLine.layout, hopt]
    rw [h3]
    exact h2
  | none =>
    have h3 : (l.layout sh fs w).2 = sh.layout l.text l.attrsList fs w := by
      simp [TextBufferLine.layout, hopt]
    rw [h3]
    exact hsh l.text l.attrsList fs w

theorem cachesWF_setLine_layout {sh : Shaper} {b : TextBuffer} {i : Nat} {l : TextBufferLine}
    (hsh : sh.WF) (hwf : b.cachesWF) (hl : b.lines[i]? = some l) (fs w : Int) :
    (b.setLine i (l.layout sh fs w).1).cachesWF := by
  intro l2 hmem lay hopt
  rcases List.mem_or_eq_of_mem_set hmem with hmem2 | heq
  · exact hwf l2 hmem2 lay hopt
  · subst heq
    have hfst := layout_fst l sh fs w
    rw [hfst.1] at hopt
    injection hopt with hlay
    rw [hfst.2, ← hlay]
    exact layout_result_wf hsh hwf (List.getElem?_mem hl) fs w

theorem upArm_valid {sh : Shaper} {b : TextBuffer} (hsh : sh.WF) (hwf : b.cachesWF)
    (hv : b.cursorCharValid = true) :
    ∀ c, b.actionUpArm sh = .ok c → c.cursorCharValid = true := by
  intro c hok
  simp only [TextBuffer.actionUpArm, bind, Except.bind] at hok
  cases hlc : b.layoutCursor b.cursor with
  | error e =>
    simp only [hlc] at hok
    exact absurd hok (by simp)
  | ok lc0 =>
    simp only [hlc] at hok
    by_cases hx : b.cursorXOpt.isNone = true
    · rw [if_pos hx] at hok
      exact setLayoutCursor_valid (b := { b with cursorXOpt := some (Int.ofNat lc0.glyph) })
        hsh hwf hv _ c hok
    · rw [if_neg hx] at hok
      exact setLayoutCursor_valid hsh hwf hv _ c hok

theorem downArm_valid {sh : Shaper} {b : TextBuffer} (hsh : sh.WF) (hwf : b.cachesWF)
    (hv : b.cursorCharValid = true) :
    ∀ c, b.actionDownArm sh = .ok c → c.cursorCharValid = true := by
  intro c hok
  simp only [TextBuffer.actionDownArm, bind, Except.bind] at hok
  cases hlc : b.layoutCursor b.cursor with
  | error e =>
    simp only [hlc] at hok
    exact absurd hok (by simp)
  | ok lc0 =>
    simp only [hlc] at hok
    cases hl2 : b.lines[lc0.line]? with
    | none =>
      simp only [TextBuffer.line, hl2] at hok
      exact absurd hok (by simp)
    | some l =>
      simp only [TextBuffer.line, hl2] at hok
      have hwf2 := cachesWF_setLine_layout hsh hwf hl2 b.metrics.fontSize b.width
      have hv2 := cursorCharValid_setLine_textEq hl2
        (layout_fst l sh b.metrics.fontSize b.width).2 hv
      by_cases hx : (b.setLine lc0.line (l.layout sh b.metrics.fontSize b.width).1).cursorXOpt.isNone = true
      · rw [if_pos hx] at hok
        exact setLayoutCursor_valid
          (b := { b.setLine lc0.line (l.layout sh b.metrics.fontSize b.width).1 with
            cursorXOpt := some (Int.ofNat lc0.glyph) })
          hsh hwf2 hv2 _ c hok
      · rw [if_neg hx] at hok
        exact setLayoutCursor_valid hsh hwf2 hv2 _ c hok

theorem homeArm_valid {sh : Shaper} {b : TextBuffer} (hsh : sh.WF) (hwf : b.cachesWF)
    (hv : b.cursorCharValid = true) :
    ∀ c, b.actionHomeArm sh = .ok c → c.cursorCharValid = true := by
  intro c hok
  simp only [TextBuffer.actionHomeArm, bind, Except.bind] at hok
  cases hlc : b.layoutCursor b.cursor with
  | error e =>
    simp only [hlc] at hok
    exact absurd hok (by simp)
  | ok lc0 =>
    simp only [hlc] at hok
    cases hslc : b.setLayoutCursor sh { lc0 with glyph := 0 } with
    | error e =>
      simp only [hslc] at hok
      exact absurd hok (by simp)
    | ok b2 =>
      simp only [hslc] at hok
      simp only [Except.ok.injEq] at hok
      subst hok
      exact setLayoutCursor_valid hsh hwf hv _ b2 hslc

theorem endArm_valid {sh : Shaper} {b : TextBuffer} (hsh : sh.WF) (hwf : b.cachesWF)
    (hv : b.cursorCharValid = true) :
    ∀ c, b.actionEndArm sh = .ok c → c.cursorCharValid = true := by
  intro c hok
  simp only [TextBuffer.actionEndArm, bind, Except.bind] at hok
  cases hlc : b.layoutCursor b.cursor with
  | error e =>
    simp only [hlc] at hok
    exact absurd hok (by simp)
  | ok lc0 =>
    simp only [hlc] at hok
    cases hslc : b.setLayoutCursor sh { lc0 with glyph := usizeMax } with
    | error e =>
      simp only [hslc] at hok
      exact absurd hok (by simp)
    | ok b2 =>
      simp only [hslc] at hok
      simp only [Except.ok.injEq] at hok
      subst hok
      exact setLayoutCursor_valid hsh hwf hv _ b2 hslc

theorem shapeUntilGo_texts (sh : Shaper) (fs w budget : Int) :
    ∀ (ls : List TextBufferLine) (total : Int) (resh : Nat),
      (shapeUntilGo sh fs w budget ls total resh).1.map TextBufferLine.text =
        ls.map TextBufferLine.text := by
  intro ls
  induction ls with
  | nil => intro total resh; simp [shapeUntilGo]
  | cons l rest ih =>
    intro total resh
    by_cases hb : budget ≤ total
    · simp only [shapeUntilGo, if_pos hb]
    · simp only [shapeUntilGo, if_neg hb, List.map_cons]
      rw [ih]
      rw [(layout_fst l sh fs w).2]

theorem sus_preserve {sh : Shaper} {b b2 : TextBuffer}
    (hok : b.shapeUntilScroll sh = .ok b2) :
    b2.cursor = b.cursor ∧
      b2.lines.map TextBufferLine.text = b.lines.map TextBufferLine.text := by
  unfold TextBuffer.shapeUntilScroll at hok
  cases hlv : b.visibleLinesE with
  | error e =>
    rw [hlv] at hok
    simp [bind, Except.bind] at hok
  | ok lv =>
    rw [hlv] at hok
    simp only [bind, Except.bind, TextBuffer.shapeUntil, Except.ok.injEq] at hok
    subst hok
    exact ⟨rfl, shapeUntilGo_texts sh b.metrics.fontSize b.width (b.scroll + lv) b.lines 0 0⟩

theorem cursorCharValid_textsEq {b b2 : TextBuffer} (hc : b2.cursor = b.cursor)
    (ht : b2.lines.map TextBufferLine.text = b.lines.map TextBufferLine.text)
    (hv : b.cursorCharValid = true) : b2.cursorCharValid = true := by
  obtain ⟨l, hl, hle, hcb⟩ := cursorCharValid_elim hv
  have hmap : (b2.lines[b.cursor.line]?).map TextBufferLine.text = some l.text := by
    rw [← List.getElem?_map, ht, List.getElem?_map, hl]
    rfl
  obtain ⟨l2, hl2, htext⟩ := Option.map_eq_some'.mp hmap
  refine cursorCharValid_intro (l := l2) ?_ ?_
  · rw [hc]
    exact hl2
  · rw [hc, htext]
    exact hcb

theorem pageUpArm_valid {sh : Shaper} {b : TextBuffer} (hv : b.cursorCharValid = true) :
    ∀ c, b.actionPageUpArm sh = .ok c → c.cursorCharValid = true := by
  intro c hok
  simp only [TextBuffer.actionPageUpArm, bind, Except.bind] at hok
  cases hlv : b.visibleLinesE with
  | error e =>
    simp only [hlv] at hok
    exact absurd hok (by simp)
  | ok lv =>
    simp only [hlv] at hok
    obtain ⟨hc, ht⟩ := sus_preserve hok
    exact cursorCharValid_textsEq hc ht hv

theorem pageDownArm_valid {sh : Shaper} {b : TextBuffer} (hv : b.cursorCharValid = true) :
    ∀ c, b.actionPageDownArm sh = .ok c → c.cursorCharValid = true := by
  intro c hok
  simp only [TextBuffer.actionPageDownArm, bind, Except.bind] at hok
  cases hlv : b.visibleLinesE with
  | error e =>
    simp only [hlv] at hok
    exact absurd hok (by simp)
  | ok lv =>
    simp only [hlv] at hok
    obtain ⟨hc, ht⟩ := sus_preserve hok
    exact cursorCharValid_textsEq hc ht hv

theorem scrollArm_valid {sh : Shaper} {b : TextBuffer} (n : Int)
    (hv : b.cursorCharValid = true) :
    ∀ c, b.actionScrollArm sh n = .ok c → c.cursorCharValid = true := by
  intro c hok
  unfold TextBuffer.actionScrollArm at hok
  obtain ⟨hc, ht⟩ := sus_preserve hok
  exact cursorCharValid_textsEq hc ht hv

theorem getElemQ_insertIdx_self {α : Type} (l : List α) (x : α) (n : Nat) (hn : n ≤ l.length) :
    (l.insertIdx n x)[n]? = some x := by
  have hlen : n < (l.insertIdx n x).length := by
    rw [List.length_insertIdx n l hn]
    omega
  rw [List.getElem?_eq_getElem hlen]
  rw [List.getElem_insertIdx_self l x n hn]

theorem insertArm_valid {b : TextBuffer} (hv : b.cursorValid = true) (c0 : Nat) :
    ∀ c, b.actionInsertArm c0 = .ok c → c.cursorCharValid = true := by
  intro c hok
  obtain ⟨l, hl, hle, hgb⟩ := cursorValid_elim hv
  have hlt : b.cursor.line < b.lines.length := by
    rw [List.getElem?_eq_some] at hl
    exact hl.1
  unfold TextBuffer.actionInsertArm at hok
  by_cases hcond : (isControlChar c0 && !(c0 == 9 || c0 == 0x92)) = true
  · rw [if_pos hcond] at hok
    simp only [Except.ok.injEq] at hok
    subst hok
    exact cursorValid_charValid hv
  · rw [if_neg hcond] at hok
    have hcb := graphemeBoundary_charBoundary hgb
    simp only [isCharBoundary, Option.isSome_iff_exists] at hcb
    obtain ⟨p, hp⟩ := hcb
    obtain ⟨hs, hbl⟩ := splitAtByte_some hp
    simp only [TextBuffer.line, hl, TextBufferLine.splitOff, hp, TextBufferLine.append,
      TextBufferLine.new, TextBuffer.setLine, AttrsList.new, bind, Except.bind,
      Except.ok.injEq] at hok
    subst hok
    refine cursorCharValid_intro (l := _) (List.getElem?_set_self hlt) ?_
    show isCharBoundary ((p.1 ++ [c0]) ++ p.2) (b.cursor.index + charLenUtf8 c0) = true
    have hb2 : byteLen (p.1 ++ [c0]) = b.cursor.index + charLenUtf8 c0 := by
      rw [byteLen_append, byteLen_cons, byteLen_nil, hbl]
      omega
    rw [← hb2]
    exact isCharBoundary_append (p.1 ++ [c0]) p.2

theorem enterArm_valid {b : TextBuffer} (hv : b.cursorValid = true) :
    ∀ c, b.actionEnterArm = .ok c → c.cursorCharValid = true := by
  intro c hok
  obtain ⟨l, hl, hle, hgb⟩ := cursorValid_elim hv
  have hlt : b.cursor.line < b.lines.length := by
    rw [List.getElem?_eq_some] at hl
    exact hl.1
  have hcb := graphemeBoundary_charBoundary hgb
  simp only [isCharBoundary, Option.isSome_iff_exists] at hcb
  obtain ⟨p, hp⟩ := hcb
  simp only [TextBuffer.actionEnterArm, TextBuffer.line, hl, TextBufferLine.splitOff, hp,
    TextBuffer.setLine, bind, Except.bind, Except.ok.injEq] at hok
  subst hok
  have hn : b.cursor.line + 1 ≤ (b.lines.set b.cursor.line
      (TextBufferLine.mk p.1 (l.attrsList.splitOff b.cursor.index).1 none none)).length := by
    rw [List.length_set]
    omega
  refine cursorCharValid_intro (l := _) (getElemQ_insertIdx_self _ _ _ hn) ?_
  exact isCharBoundary_zero _

theorem deleteArm_valid {b : TextBuffer} (hv : b.cursorValid = true) :
    ∀ c, b.actionDeleteArm = .ok c → c.cursorCharValid = true := by
  intro c hok
  obtain ⟨l, hl, hle, hgb⟩ := cursorValid_elim hv
  have hlt : b.cursor.line < b.lines.length := by
    rw [List.getElem?_eq_some] at hl
    exact hl.1
  simp only [TextBuffer.actionDeleteArm, TextBuffer.line, hl, bind, Except.bind] at hok
  by_cases hlen : b.cursor.index < byteLen l.text
  · rw [if_pos hlen] at hok
    cases hrange :
        ((graphemeIndices l.text).takeWhile (fun p => p.1 ≤ b.cursor.index)).getLast? with
    | none =>
      simp only [hrange, Except.ok.injEq] at hok
      subst hok
      exact cursorValid_charValid hv
    | some pr =>
      simp only [hrange] at hok
      have hmem : pr ∈ graphemeIndices l.text :=
        (List.takeWhile_sublist _).mem (List.mem_of_mem_getLast? hrange)
      obtain ⟨p1, p2⟩ := pr
      obtain ⟨pre, suf, hs, ho⟩ := graphemeIndices_split hmem
      have hsp1 : splitAtByte l.text (p1 + byteLen p2) = some (pre ++ p2, suf) := by
        have hb : p1 + byteLen p2 = byteLen (pre ++ p2) := by
          rw [byteLen_append, ho]
        rw [hs, hb]
        exact splitAtByte_append (pre ++ p2) suf
      have hsp2 : splitAtByte (pre ++ p2) p1 = some (pre, p2) := by
        rw [ho]
        exact splitAtByte_append pre p2
      simp only [TextBufferLine.splitOff, hsp1, hsp2, TextBufferLine.append,
        TextBuffer.setLine, bind, Except.bind, Except.ok.injEq] at hok
      subst hok
      refine cursorCharValid_intro (l := _) (List.getElem?_set_self hlt) ?_
      show isCharBoundary (pre ++ suf) p1 = true
      rw [ho]
      exact isCharBoundary_append pre suf
  · rw [if_neg hlen] at hok
    by_cases hnext : b.cursor.line + 1 < b.lines.length
    · rw [if_pos hnext] at hok
      obtain ⟨l1, hl1⟩ : ∃ l1, b.lines[b.cursor.line + 1]? = some l1 :=
        ⟨_, List.getElem?_eq_getElem hnext⟩
      simp only [TextBuffer.line, hl1, TextBufferLine.append, bind, Except.bind,
        Except.ok.injEq] at hok
      subst hok
      have hlt2 : b.cursor.line < (b.lines.eraseIdx (b.cursor.line + 1)).length := by
        rw [List.length_eraseIdx_of_lt hnext]
        omega
      refine cursorCharValid_intro (l := _) (List.getElem?_set_self hlt2) ?_
      show isCharBoundary (l.text ++ l1.text) b.cursor.index = true
      exact isCharBoundary_append_right l1.text (graphemeBoundary_charBoundary hgb)
    · rw [if_neg hnext] at hok
      simp only [Except.ok.injEq] at hok
      subst hok
      exact cursorValid_charValid hv

theorem backspaceArm_valid {b : TextBuffer} (hv : b.cursorValid = true) :
    ∀ c, b.actionBackspaceArm = .ok c → c.cursorCharValid = true := by
  intro c hok
  obtain ⟨l, hl, hle, hgb⟩ := cursorValid_elim hv
  have hlt : b.cursor.line < b.lines.length := by
    rw [List.getElem?_eq_some] at hl
    exact hl.1
  unfold TextBuffer.actionBackspaceArm at hok
  by_cases hpos : b.cursor.index > 0
  · rw [if_pos hpos] at hok
    have hcb := graphemeBoundary_charBoundary hgb
    simp only [isCharBoundary, Option.isSome_iff_exists] at hcb
    obtain ⟨⟨a, t⟩, hp⟩ := hcb
    have hbl : byteLen a = b.cursor.index := (splitAtByte_some hp).2
    rcases List.eq_nil_or_concat' a with hnil | ⟨a2, cl, hconc⟩
    · subst hnil
      rw [byteLen_nil] at hbl
      omega
    · subst hconc
      have hlen2 : byteLen a2 < b.cursor.index := by
        rw [← hbl, byteLen_append, byteLen_cons, byteLen_nil]
        have := charLen_pos cl
        omega
      have hprev : prevCharIndex (a2 ++ [cl]) b.cursor.index = byteLen a2 :=
        prevCharIndex_concat a2 cl b.cursor.index hlen2
      simp only [TextBuffer.line, hl, TextBufferLine.splitOff, hp, hprev,
        splitAtByte_append, TextBufferLine.append, TextBuffer.setLine,
        bind, Except.bind, Except.ok.injEq] at hok
      subst hok
      refine cursorCharValid_intro (l := _) (List.getElem?_set_self hlt) ?_
      show isCharBoundary (a2 ++ t) (byteLen a2) = true
      exact isCharBoundary_append a2 t
  · rw [if_neg hpos] at hok
    by_cases hline : b.cursor.line > 0
    · rw [if_pos hline] at hok
      have hlt1 : b.cursor.line - 1 < (b.lines.eraseIdx b.cursor.line).length := by
        rw [List.length_eraseIdx_of_lt hlt]
        omega
      obtain ⟨lp, hlp⟩ : ∃ lp, (b.lines.eraseIdx b.cursor.line)[b.cursor.line - 1]? = some lp :=
        ⟨_, List.getElem?_eq_getElem hlt1⟩
      simp only [TextBuffer.line, hl, hlp, TextBufferLine.append, bind, Except.bind,
        Except.ok.injEq] at hok
      subst hok
      refine cursorCharValid_intro (l := _) (List.getElem?_set_self hlt1) ?_
      show isCharBoundary (lp.text ++ l.text) (byteLen lp.text) = true
      exact isCharBoundary_append lp.text l.text
    · rw [if_neg hline] at hok
      simp only [Except.ok.injEq] at hok
      subst hok
      exact cursorValid_charValid hv

theorem emitRuns_mem {lh height scroll : Int} :
    ∀ (rows : List (Nat × List Nat × Bool × List LayoutGlyph)) (y t : Int)
      (run : TextLayoutRun), run ∈ emitRuns lh height scroll rows y t →
      ∃ r ∈ rows, run.lineI = r.1 ∧ run.text = r.2.1 ∧ run.glyphs = r.2.2.2 := by
  intro rows
  induction rows with
  | nil =>
    intro y t run h
    simp [emitRuns] at h
  | cons r0 rest ih =>
    intro y t run h
    simp only [emitRuns] at h
    by_cases hs : t < scroll
    · rw [if_pos hs] at h
      obtain ⟨r, hr, hprops⟩ := ih _ _ _ h
      exact ⟨r, List.mem_cons_of_mem _ hr, hprops⟩
    · rw [if_neg hs] at h
      by_cases hh : height < y + lh
      · rw [if_pos hh] at h
        simp at h
      · rw [if_neg hh] at h
        rcases List.mem_cons.mp h with heq | hmem
        · subst heq
          exact ⟨r0, List.mem_cons_self r0 rest, rfl, rfl, rfl⟩
        · obtain ⟨r, hr, hprops⟩ := ih _ _ _ hmem
          exact ⟨r, List.mem_cons_of_mem _ hr, hprops⟩

theorem flatRows_shape :
    ∀ (ls : List TextBufferLine) (n : Nat) (r : Nat × List Nat × Bool × List LayoutGlyph),
      r ∈ flatRows n ls →
      ∃ j l, ls[j]? = some l ∧ r.1 = n + j ∧ r.2.1 = l.text ∧
        ∃ lay, l.layoutOpt = some lay ∧ ∃ row ∈ lay, r.2.2.2 = row.glyphs := by
  intro ls
  induction ls with
  | nil =>
    intro n r h
    simp [flatRows] at h
  | cons l0 rest ih =>
    intro n r h
    cases hs : l0.shapeOpt with
    | none => simp [flatRows, hs] at h
    | some sh0 =>
      cases hlay : l0.layoutOpt with
      | none => simp [flatRows, hs, hlay] at h
      | some lay =>
        simp only [flatRows, hs, hlay, List.mem_append, List.mem_map] at h
        rcases h with ⟨row, hrow, heq⟩ | h
        · subst heq
          exact ⟨0, l0, by simp, by omega, rfl, lay, hlay, row, hrow, rfl⟩
        · obtain ⟨j, l, hj, h1, h2, hrest⟩ := ih (n + 1) r h
          refine ⟨j + 1, l, ?_, by omega, h2, hrest⟩
          simpa using hj

theorem layoutRuns_shape {b : TextBuffer} (run : TextLayoutRun)
    (hrun : run ∈ b.layoutRuns) :
    ∃ l, b.lines[run.lineI]? = some l ∧ run.text = l.text ∧
      ∃ lay, l.layoutOpt = some lay ∧ ∃ row ∈ lay, run.glyphs = row.glyphs := by
  obtain ⟨r, hr, h1, h2, h3⟩ := emitRuns_mem _ _ _ _ hrun
  obtain ⟨j, l, hj, hj1, hj2, lay, hlay, row, hrow, hglyphs⟩ := flatRows_shape b.lines 0 r hr
  refine ⟨l, ?_, ?_, lay, hlay, row, hrow, ?_⟩
  · rw [h1, hj1, Nat.zero_add]
    exact hj
  · rw [h2, hj2]
  · rw [h3, hglyphs]

theorem egcScan_mem (rtl : Bool) (x : Int) :
    ∀ (l : List (Nat × List Nat)) (x0 w0 : Int) (ncc : Nat),
      egcScan rtl x x0 w0 l = some ncc →
      ∃ p ∈ l, ncc = p.1 ∨ ncc = p.1 + byteLen p.2 := by
  intro l
  induction l with
  | nil =>
    intro x0 w0 ncc h
    simp [egcScan] at h
  | cons p0 rest ih =>
    intro x0 w0 ncc h
    simp only [egcScan] at h
    by_cases hx : x0 ≤ x ∧ x ≤ x0 + w0
    · rw [if_pos hx] at h
      simp only [Option.some.injEq] at h
      by_cases hhalf : (decide (x0 + Int.tdiv w0 2 ≤ x) ≠ rtl)
      · rw [if_pos hhalf] at h
        exact ⟨p0, List.mem_cons_self p0 rest, Or.inr h.symm⟩
      · rw [if_neg hhalf] at h
        exact ⟨p0, List.mem_cons_self p0 rest, Or.inl h.symm⟩
    · rw [if_neg hx] at h
      obtain ⟨p, hp, hor⟩ := ih _ _ _ h
      exact ⟨p, List.mem_cons_of_mem _ hp, hor⟩

theorem glyphScan_valid {text : List Nat} {x : Int} :
    ∀ (glyphs : List LayoutGlyph),
      (∀ g ∈ glyphs, g.start ≤ g.stop ∧ g.stop ≤ byteLen text ∧
        isCharBoundary text g.start = true ∧ isCharBoundary text g.stop = true) →
      ∀ idx, glyphScan text x glyphs = .ok (some idx) →
        isCharBoundary text idx = true ∧ idx ≤ byteLen text := by
  intro glyphs
  induction glyphs with
  | nil =>
    intro _ idx h
    simp [glyphScan] at h
  | cons g rest ih =>
    intro hwf idx h
    have hg := hwf g (List.mem_cons_self g rest)
    simp only [glyphScan] at h
    by_cases hx : g.x ≤ x ∧ x ≤ g.x + g.w
    · rw [if_pos hx] at h
      have hb1 := hg.2.2.1
      have hb2 := hg.2.2.2
      simp only [isCharBoundary, Option.isSome_iff_exists] at hb1
      obtain ⟨⟨pre, rest0⟩, hpre⟩ := hb1
      have hpreA : text = pre ++ rest0 := (splitAtByte_some hpre).1
      have hpreB : byteLen pre = g.start := (splitAtByte_some hpre).2
      have hq : ∃ q, splitAtByte rest0 (g.stop - g.start) = some q := by
        have hadd := splitAtByte_add pre rest0 (g.stop - g.start)
        have harith : byteLen pre + (g.stop - g.start) = g.stop := by
          have := hg.1
          omega
        rw [harith, ← hpreA] at hadd
        simp only [isCharBoundary] at hb2
        rw [hadd] at hb2
        have hsome : (splitAtByte rest0 (g.stop - g.start)).isSome = true := by
          cases hc : splitAtByte rest0 (g.stop - g.start) with
          | none => rw [hc] at hb2; simp at hb2
          | some q3 => rfl
        exact Option.isSome_iff_exists.mp hsome
      obtain ⟨⟨c1, c2⟩, hq⟩ := hq
      have hqA : rest0 = c1 ++ c2 := (splitAtByte_some hq).1
      have hc1len : byteLen c1 = g.stop - g.start := (splitAtByte_some hq).2
      have hslice : sliceBytes text g.start g.stop = .ok c1 := by
        have hrev : ¬ (g.stop < g.start) := by
          have := hg.1
          omega
        simp only [sliceBytes, if_neg hrev, hpre, hq]
      have htextEq : text = pre ++ (c1 ++ c2) := by
        rw [hpreA, hqA]
      simp only [hslice, bind, Except.bind] at h
      cases hegc : egcScan g.rtl x g.x
          (Int.tdiv g.w (Int.ofNat (graphemeIndices c1).length)) (graphemeIndices c1) with
      | some ncc =>
        simp only [hegc, Except.ok.injEq, Option.some.injEq] at h
        subst h
        obtain ⟨⟨p1, p2⟩, hp, hor⟩ := egcScan_mem g.rtl x _ _ _ _ hegc
        have hbnd := graphemeIndices_boundary hp
        have hcb : isCharBoundary c1 ncc = true ∧ ncc ≤ byteLen c1 := by
          rcases hor with h1 | h1
          · subst h1
            exact ⟨hbnd.1, by have := hbnd.2.2; omega⟩
          · subst h1
            exact ⟨hbnd.2.1, hbnd.2.2⟩
        constructor
        · rw [htextEq, ← hpreB]
          exact isCharBoundary_shift pre (isCharBoundary_append_right c2 hcb.1)
        · have := hg.2.1
          have := hg.1
          have := hcb.2
          omega
      | none =>
        simp only [hegc, Except.ok.injEq, Option.some.injEq] at h
        subst h
        by_cases hhalf : (decide (g.x + Int.tdiv g.w 2 ≤ x) ≠ g.rtl)
        · rw [if_pos hhalf]
          constructor
          · rw [htextEq, ← hpreB, ← byteLen_append, ← List.append_assoc]
            exact isCharBoundary_append (pre ++ c1) c2
          · have := hg.2.1
            have := hg.1
            have := hc1len
            omega
        · rw [if_neg hhalf]
          simp only [Nat.add_zero]
          exact ⟨hg.2.2.1, by have := hg.2.1; have := hg.1; omega⟩
    · rw [if_neg hx] at h
      exact ih (fun g2 hg2 => hwf g2 (List.mem_cons_of_mem g hg2)) idx h

theorem hitRun_valid {run : TextLayoutRun} {x : Int}
    (hwfg : ∀ g ∈ run.glyphs, g.start ≤ g.stop ∧ g.stop ≤ byteLen run.text ∧
      isCharBoundary run.text g.start = true ∧ isCharBoundary run.text g.stop = true) :
    ∀ nc, hitRun run x = .ok nc → nc.line = run.lineI ∧
      isCharBoundary run.text nc.index = true ∧ nc.index ≤ byteLen run.text := by
  intro nc h
  simp only [hitRun, bind, Except.bind] at h
  cases hgs : glyphScan run.text x run.glyphs with
  | error e =>
    simp only [hgs] at h
    exact absurd h (by simp)
  | ok o =>
    simp only [hgs] at h
    cases o with
    | some idx =>
      simp only [Except.ok.injEq] at h
      subst h
      have hgv := glyphScan_valid run.glyphs hwfg idx hgs
      exact ⟨rfl, hgv.1, hgv.2⟩
    | none =>
      cases hgl : run.glyphs.getLast? with
      | some g =>
        simp only [hgl, Except.ok.injEq] at h
        subst h
        have hg := hwfg g (List.mem_of_mem_getLast? hgl)
        exact ⟨rfl, hg.2.2.2, hg.2.1⟩
      | none =>
        simp only [hgl, Except.ok.injEq] at h
        subst h
        exact ⟨rfl, isCharBoundary_zero run.text, Nat.zero_le _⟩

theorem hitGo_mem {fs lh x y : Int} :
    ∀ (runs : List TextLayoutRun) (nc : TextCursor),
      hitGo fs lh x y runs = .ok (some nc) → ∃ r ∈ runs, hitRun r x = .ok nc := by
  intro runs
  induction runs with
  | nil =>
    intro nc h
    simp [hitGo] at h
  | cons r rest ih =>
    intro nc h
    simp only [hitGo] at h
    by_cases hband : r.lineY - fs ≤ y ∧ y < r.lineY - fs + lh
    · rw [if_pos hband] at h
      cases hr : hitRun r x with
      | error e => rw [hr] at h; simp [Except.map] at h
      | ok nc0 =>
        rw [hr] at h
        simp only [Except.map, Except.ok.injEq, Option.some.injEq] at h
        subst h
        exact ⟨r, List.mem_cons_self r rest, hr⟩
    · rw [if_neg hband] at h
      obtain ⟨r2, hr2, hprops⟩ := ih nc h
      exact ⟨r2, List.mem_cons_of_mem _ hr2, hprops⟩

theorem hit_valid {b : TextBuffer} (hwf : b.cachesWF) {x y : Int} {nc : TextCursor}
    (h : b.hit x y = .ok (some nc)) :
    ∃ l, b.lines[nc.line]? = some l ∧ isCharBoundary l.text nc.index = true ∧
      nc.index ≤ byteLen l.text := by
  obtain ⟨run, hrun, hr⟩ := hitGo_mem b.layoutRuns nc h
  obtain ⟨l, hl, htext, lay, hlay, row, hrow, hglyphs⟩ := layoutRuns_shape run hrun
  have hwfg : ∀ g ∈ run.glyphs, g.start ≤ g.stop ∧ g.stop ≤ byteLen run.text ∧
      isCharBoundary run.text g.start = true ∧ isCharBoundary run.text g.stop = true := by
    intro g hgmem
    rw [hglyphs] at hgmem
    rw [htext]
    exact hwf l (List.getElem?_mem hl) lay hlay row hrow g hgmem
  have hrv := hitRun_valid hwfg nc hr
  refine ⟨l, ?_, ?_, ?_⟩
  · rw [hrv.1]
    exact hl
  · rw [← htext]
    exact hrv.2.1
  · rw [← htext]
    exact hrv.2.2

theorem clickArm_valid {b : TextBuffer} (hwf : b.cachesWF) (hv : b.cursorCharValid = true)
    (x y : Int) : ∀ c, b.actionClickArm x y = .ok c → c.cursorCharValid = true := by
  intro c hok
  simp only [TextBuffer.actionClickArm, bind, Except.bind] at hok
  cases hhit : TextBuffer.hit { b with selectOpt := none } x y with
  | error e =>
    simp only [hhit] at hok
    exact absurd hok (by simp)
  | ok o =>
    cases o with
    | none =>
      simp only [hhit, Except.ok.injEq] at hok
      subst hok
      exact hv
    | some nc =>
      simp only [hhit] at hok
      by_cases hne : nc ≠ b.cursor
      · rw [if_pos hne] at hok
        simp only [Except.ok.injEq] at hok
        subst hok
        obtain ⟨l, hl, hcb, hle⟩ :=
          hit_valid (b := { b with selectOpt := none }) hwf hhit
        exact cursorCharValid_intro
          (b := { b with selectOpt := none, cursor := nc, redraw := true }) hl hcb
      · rw [if_neg hne] at hok
        simp only [Except.ok.injEq] at hok
        subst hok
        exact hv

theorem dragArm_valid {b : TextBuffer} (hwf : b.cachesWF) (hv : b.cursorCharValid = true)
    (x y : Int) : ∀ c, b.actionDragArm x y = .ok c → c.cursorCharValid = true := by
  intro c hok
  simp only [TextBuffer.actionDragArm, bind, Except.bind] at hok
  by_cases hsel : b.selectOpt.isNone = true
  · rw [if_pos hsel] at hok
    cases hhit : TextBuffer.hit { b with selectOpt := some b.cursor, redraw := true } x y with
    | error e =>
      simp only [hhit] at hok
      exact absurd hok (by simp)
    | ok o =>
      cases o with
      | none =>
        simp only [hhit, Except.ok.injEq] at hok
        subst hok
        exact hv
      | some nc =>
        simp only [hhit] at hok
        by_cases hne : nc ≠ b.cursor
        · rw [if_pos hne] at hok
          simp only [Except.ok.injEq] at hok
          subst hok
          obtain ⟨l, hl, hcb, hle⟩ :=
            hit_valid (b := { b with selectOpt := some b.cursor, redraw := true }) hwf hhit
          exact cursorCharValid_intro
            (b := { b with selectOpt := some b.cursor, redraw := true, cursor := nc }) hl hcb
        · rw [if_neg hne] at hok
          simp only [Except.ok.injEq] at hok
          subst hok
          exact hv
  · rw [if_neg hsel] at hok
    cases hhit : b.hit x y with
    | error e =>
      simp only [hhit] at hok
      exact absurd hok (by simp)
    | ok o =>
      cases o with
      | none =>
        simp only [hhit, Except.ok.injEq] at hok
        subst hok
        exact hv
      | some nc =>
        simp only [hhit] at hok
        by_cases hne : nc ≠ b.cursor
        · rw [if_pos hne] at hok
          simp only [Except.ok.injEq] at hok
          subst hok
          obtain ⟨l, hl, hcb, hle⟩ := hit_valid hwf hhit
          exact cursorCharValid_intro (b := { b with cursor := nc, redraw := true }) hl hcb
        · rw [if_neg hne] at hok
          simp only [Except.ok.injEq] at hok
          subst hok
          exact hv

theorem leftArm_valid {b : TextBuffer} (hv : b.cursorValid = true) :
    ∀ c, b.actionLeftArm = .ok c → c.cursorCharValid = true := by
  intro c hok
  obtain ⟨l, hl, hle, hgb⟩ := cursorValid_elim hv
  simp only [TextBuffer.actionLeftArm, TextBuffer.line, hl, bind, Except.bind] at hok
  cases hs : l.shapeOpt with
  | none =>
    simp only [hs, Except.ok.injEq] at hok
    subst hok
    exact cursorValid_charValid hv
  | some sh0 =>
    simp only [hs] at hok
    by_cases hrtl : sh0.rtl = true
    · rw [if_pos hrtl] at hok
      exact nextArm_valid hv c hok
    · rw [if_neg hrtl] at hok
      exact prevArm_valid hv c hok

theorem rightArm_valid {b : TextBuffer} (hv : b.cursorValid = true) :
    ∀ c, b.actionRightArm = .ok c → c.cursorCharValid = true := by
  intro c hok
  obtain ⟨l, hl, hle, hgb⟩ := cursorValid_elim hv
  simp only [TextBuffer.actionRightArm, TextBuffer.line, hl, bind, Except.bind] at hok
  cases hs : l.shapeOpt with
  | none =>
    simp only [hs, Except.ok.injEq] at hok
    subst hok
    exact cursorValid_charValid hv
  | some sh0 =>
    simp only [hs] at hok
    by_cases hrtl : sh0.rtl = true
    · rw [if_pos hrtl] at hok
      exact prevArm_valid hv c hok
    · rw [if_neg hrtl] at hok
      exact nextArm_valid hv c hok

/-- C1 (amended): for every buffer whose cursor is valid beforehand (in
bounds and on a grapheme boundary), whose cached layouts and Shaper
collaborator produce well-formed glyph ranges, and for every `TextAction`
that completes without panicking, the cursor afterwards satisfies
`cursor.line < lines.len()` and `cursor.index <= lines[cursor.line].text().len()`
and lies on a char (code point) boundary of that line's text — but not
necessarily on a grapheme-cluster boundary, which `Backspace` can break. -/
theorem action_cursor_valid (sh : Shaper) (hsh : sh.WF) (b : TextBuffer)
    (hv : b.cursorValid = true) (hwf : b.cachesWF) (a : TextAction) (b2 : TextBuffer)
    (hok : b.action sh a = .ok b2) :
    ∃ l, b2.lines[b2.cursor.line]? = some l ∧ b2.cursor.index ≤ byteLen l.text ∧
      isCharBoundary l.text b2.cursor.index = true := by
  have hcv : b.cursorCharValid = true := cursorValid_charValid hv
  suffices hgoal : b2.cursorCharValid = true by
    obtain ⟨l, hl, hle, hcb⟩ := cursorCharValid_elim hgoal
    exact ⟨l, hl, hle, hcb⟩
  cases a with
  | previous =>
    simp only [TextBuffer.action, bind, Except.bind] at hok
    cases harm : b.actionPreviousArm with
    | error e =>
      simp only [harm] at hok
      exact absurd hok (by simp)
    | ok c0 =>
      simp only [harm, Except.ok.injEq] at hok
      subst hok
      exact prevArm_valid hv c0 harm
  | next =>
    simp only [TextBuffer.action, bind, Except.bind] at hok
    cases harm : b.actionNextArm with
    | error e =>
      simp only [harm] at hok
      exact absurd hok (by simp)
    | ok c0 =>
      simp only [harm, Except.ok.injEq] at hok
      subst hok
      exact nextArm_valid hv c0 harm
  | left =>
    simp only [TextBuffer.action, bind, Except.bind] at hok
    cases harm : b.actionLeftArm with
    | error e =>
      simp only [harm] at hok
      exact absurd hok (by simp)
    | ok c0 =>
      simp only [harm, Except.ok.injEq] at hok
      subst hok
      exact leftArm_valid hv c0 harm
  | right =>
    simp only [TextBuffer.action, bind, Except.bind] at hok
    cases harm : b.actionRightArm with
    | error e =>
      simp only [harm] at hok
      exact absurd hok (by simp)
    | ok c0 =>
      simp only [harm, Except.ok.injEq] at hok
      subst hok
      exact rightArm_valid hv c0 harm
  | up =>
    simp only [TextBuffer.action, bind, Except.bind] at hok
    cases harm : b.actionUpArm sh with
    | error e =>
      simp only [harm] at hok
      exact absurd hok (by simp)
    | ok c0 =>
      simp only [harm, Except.ok.injEq] at hok
      subst hok
      exact upArm_valid hsh hwf hcv c0 harm
  | down =>
    simp only [TextBuffer.action, bind, Except.bind] at hok
    cases harm : b.actionDownArm sh with
    | error e =>
      simp only [harm] at hok
      exact absurd hok (by simp)
    | ok c0 =>
      simp only [harm, Except.ok.injEq] at hok
      subst hok
      exact downArm_valid hsh hwf hcv c0 harm
  | home =>
    simp only [TextBuffer.action, bind, Except.bind] at hok
    cases harm : b.actionHomeArm sh with
    | error e =>
      simp only [harm] at hok
      exact absurd hok (by simp)
    | ok c0 =>
      simp only [harm, Except.ok.injEq] at hok
      subst hok
      exact homeArm_valid hsh hwf hcv c0 harm
  | «end» =>
    simp only [TextBuffer.action, bind, Except.bind] at hok
    cases harm : b.actionEndArm sh with
    | error e =>
      simp only [harm] at hok
      exact absurd hok (by simp)
    | ok c0 =>
      simp only [harm, Except.ok.injEq] at hok
      subst hok
      exact endArm_valid hsh hwf hcv c0 harm
  | pageUp =>
    simp only [TextBuffer.action, bind, Except.bind] at hok
    cases harm : b.actionPageUpArm sh with
    | error e =>
      simp only [harm] at hok
      exact absurd hok (by simp)
    | ok c0 =>
      simp only [harm, Except.ok.injEq] at hok
      subst hok
      exact pageUpArm_valid hcv c0 harm
  | pageDown =>
    simp only [TextBuffer.action, bind, Except.bind] at hok
    cases harm : b.actionPageDownArm sh with
    | error e =>
      simp only [harm] at hok
      exact absurd hok (by simp)
    | ok c0 =>
      simp only [harm, Except.ok.injEq] at hok
      subst hok
      exact pageDownArm_valid hcv c0 harm
  | insert c1 =>
    simp only [TextBuffer.action, bind, Except.bind] at hok
    cases harm : b.actionInsertArm c1 with
    | error e =>
      simp only [harm] at hok
      exact absurd hok (by simp)
    | ok c0 =>
      simp only [harm, Except.ok.injEq] at hok
      subst hok
      exact insertArm_valid hv c1 c0 harm
  | enter =>
    simp only [TextBuffer.action, bind, Except.bind] at hok
    cases harm : b.actionEnterArm with
    | error e =>
      simp only [harm] at hok
      exact absurd hok (by simp)
    | ok c0 =>
      simp only [harm, Except.ok.injEq] at hok
      subst hok
      exact enterArm_valid hv c0 harm
  | backspace =>
    simp only [TextBuffer.action, bind, Except.bind] at hok
    cases harm : b.actionBackspaceArm with
    | error e =>
      simp only [harm] at hok
      exact absurd hok (by simp)
    | ok c0 =>
      simp only [harm, Except.ok.injEq] at hok
      subst hok
      exact backspaceArm_valid hv c0 harm
  | delete =>
    simp only [TextBuffer.action, bind, Except.bind] at hok
    cases harm : b.actionDeleteArm with
    | error e =>
      simp only [harm] at hok
      exact absurd hok (by simp)
    | ok c0 =>
      simp only [harm, Except.ok.injEq] at hok
      subst hok
      exact deleteArm_valid hv c0 harm
  | click x y =>
    simp only [TextBuffer.action, bind, Except.bind] at hok
    cases harm : b.actionClickArm x y with
    | error e =>
      simp only [harm] at hok
      exact absurd hok (by simp)
    | ok c0 =>
      simp only [harm, Except.ok.injEq] at hok
      subst hok
      exact clickArm_valid hwf hcv x y c0 harm
  | drag x y =>
    simp only [TextBuffer.action, bind, Except.bind] at hok
    cases harm : b.actionDragArm x y with
    | error e =>
      simp only [harm] at hok
      exact absurd hok (by simp)
    | ok c0 =>
      simp only [harm, Except.ok.injEq] at hok
      subst hok
      exact dragArm_valid hwf hcv x y c0 harm
  | scroll n =>
    simp only [TextBuffer.action, bind, Except.bind] at hok
    cases harm : b.actionScrollArm sh n with
    | error e =>
      simp only [harm] at hok
      exact absurd hok (by simp)
    | ok c0 =>
      simp only [harm, Except.ok.injEq] at hok
      subst hok
      exact scrollArm_valid n hcv c0 harm

theorem shZero_wf : shZero.WF := by
  intro t al fs w row hrow g hg
  simp only [shZero, List.mem_singleton] at hrow
  subst hrow
  simp at hg

theorem bufHello_cachesWF : bufHello.cachesWF := by
  intro l hmem lay hopt
  have hnone : l.layoutOpt = none := by
    simp only [bufHello, mkBuffer, mkLine, TextBufferLine.new] at hmem
    rcases List.mem_cons.mp hmem with h | h
    · subst h; rfl
    · rcases List.mem_cons.mp h with h2 | h2
      · subst h2; rfl
      · simp at h2
  rw [hnone] at hopt
  exact absurd hopt (by simp)

/-- Witness for C1: on the `"Hello"`/`"World"` buffer with valid cursor
`(0, 0)` and the trivial Shaper, inserting `'X'` completes and leaves a
char-valid cursor. -/
theorem action_cursor_valid_witness :
    bufHello.cursorValid = true ∧
      ∃ b2, TextBuffer.action shZero bufHello (.insert 88) = .ok b2 ∧
        ∃ l, b2.lines[b2.cursor.line]? = some l ∧ b2.cursor.index ≤ byteLen l.text ∧
          isCharBoundary l.text b2.cursor.index = true := by
  refine ⟨by decide, ?_⟩
  have hok : (TextBuffer.action shZero bufHello (.insert 88)).isOk = true := by decide
  obtain ⟨b2, hb2⟩ : ∃ b2, TextBuffer.action shZero bufHello (.insert 88) = .ok b2 := by
    cases hh : TextBuffer.action shZero bufHello (.insert 88) with
    | ok v => exact ⟨v, rfl⟩
    | error e =>
      rw [hh] at hok
      simp [Except.isOk, Except.toBool] at hok
  exact ⟨b2, hb2,
    action_cursor_valid shZero shZero_wf bufHello (by decide) bufHello_cachesWF _ b2 hb2⟩

/-- Counterexample for C1 as stated: the buffer holding two flags (four
regional indicators) with the cursor on the cluster boundary between them
(byte 8) is valid beforehand, yet `Backspace` moves the cursor to byte 4 of
`"\u{1F1E6}\u{1F1E6}\u{1F1E6}"`, which is a char boundary but not a
grapheme-cluster boundary (the first two regional indicators pair into one
cluster `0..8`). -/
theorem action_cursor_grapheme_cex :
    bufNearRI.cursorValid = true ∧
      (TextBuffer.action shZero bufNearRI .backspace).toOption.map
          (fun b2 => (b2.cursor.line, b2.cursor.index, b2.lineText 0, b2.cursorValid)) =
        some (0, 4, some [riA, riA, riA], false) ∧
      isGraphemeBoundary [riA, riA, riA] 4 = false := by
  refine ⟨by decide, by decide, by decide⟩
